import Mathlib

set_option maxRecDepth 100000

/-!
Verification development for the Jones-polynomial Jm-triviality repository.

The Python sources are shallowly embedded:
* `JVP.py`   — sparse polynomials in `p` (`SPoly`), the ring-substitution
  engine `jones_to_Vxp` with its power tables;
* `BLexpansion.py` — the Taylor/power-sum engine `taylor_from_jones`;
* `Jm_triviality.py` — the `Jm_jvp` / `Jm_bl` index extractors, the
  `Jtransform` dispatch, the per-record classifier step of
  `process_split_file`, the probability derivation of `main`, and the
  byte-level shard splitter `ultra_fast_split`.

Python dictionaries mapping a degree to an integer coefficient are embedded
as `SPoly`: the stored key set (`keys`) plus the lookup function (`coeff`).
A Python `d.get(i, 0)` is `SPoly.get`.  Python exceptions that the sources
raise (IndexError / ValueError / KeyError / OSError) are embedded as
`Option`/`Except` `none`/`error` results.
-/

/-- Sparse polynomial in one variable: the embedding of the Python dicts of
`JVP.py` that map a degree in `p` to an integer coefficient.  `keys` is the
set of stored dictionary keys; `coeff` is the stored value (which `_poly_add`
keeps nonzero on stored keys, but the base table entry `{0: 0}` stores a
zero, so zero values on stored keys are representable). -/
structure SPoly where
  keys : Finset ℕ
  coeff : ℕ → ℤ

/-- Python `A.get(i, 0)`: the stored value when the key is present, else 0. -/
def SPoly.get (P : SPoly) (d : ℕ) : ℤ :=
  if d ∈ P.keys then P.coeff d else 0

/-- The empty dict `{}`. -/
def SPoly.empty : SPoly := ⟨∅, fun _ => 0⟩

/-- The dict `{0: 1}` (the constant 1, base entry of the power tables). -/
def SPoly.one : SPoly := ⟨{0}, fun d => if d = 0 then 1 else 0⟩

/-- `_poly_add` of `JVP.py`: add two coefficient dicts, keeping only the keys
whose summed coefficient is nonzero. -/
def poly_add (A B : SPoly) : SPoly :=
  ⟨(A.keys ∪ B.keys).filter (fun d => A.get d + B.get d ≠ 0),
   fun d => A.get d + B.get d⟩

/-- `_poly_scalar_mul` of `JVP.py`: `{}` when the scalar is 0, otherwise
multiply every stored coefficient. -/
def poly_scalar_mul (A : SPoly) (k : ℤ) : SPoly :=
  if k = 0 then SPoly.empty else ⟨A.keys, fun d => k * A.coeff d⟩

/-- `_poly_mul_p` of `JVP.py`: `{d+1: c for d, c in A.items()}`. -/
def poly_mul_p (A : SPoly) : SPoly :=
  ⟨A.keys.image (· + 1),
   fun d => match d with
     | 0 => 0
     | e + 1 => A.coeff e⟩

/-- `_mul_by_x` of `JVP.py`: `x*(A + B x) = B + (A + p B) x`. -/
def mul_by_x (AB : SPoly × SPoly) : SPoly × SPoly :=
  (AB.2, poly_add AB.1 (poly_mul_p AB.2))

/-- `_mul_by_y` of `JVP.py`: `y*(A + B x) = (B - p A) + A x`. -/
def mul_by_y (AB : SPoly × SPoly) : SPoly × SPoly :=
  (poly_add AB.2 (poly_scalar_mul (poly_mul_p AB.1) (-1)), AB.1)

/-- Entry `k` of the list built by `_power_table_x` of `JVP.py`:
`x^k = A_k + B_k x`, with the two base entries `1` and `x` written literally
(`T[1] = ({0:0}, {0:1})`) and the loop applying `_mul_by_x`. -/
def powX : ℕ → SPoly × SPoly
  | 0 => (SPoly.one, SPoly.empty)
  | 1 => (⟨{0}, fun _ => 0⟩, SPoly.one)
  | k + 2 => mul_by_x (powX (k + 1))

/-- Entry `k` of the list built by `_power_table_y` of `JVP.py`:
`y^k = A_k + B_k x` for `y = x - p`, with base `T[1] = ({1:-1}, {0:1})`. -/
def powY : ℕ → SPoly × SPoly
  | 0 => (SPoly.one, SPoly.empty)
  | 1 => (⟨{1}, fun d => if d = 1 then -1 else 0⟩, SPoly.one)
  | k + 2 => mul_by_y (powY (k + 1))

/-- The list `_power_table_x(n)` of `JVP.py`; its `k`-th entry is `powX k`
(the loop `A, B = _mul_by_x(A, B); T.append((A, B))` computes exactly the
recursion of `powX`). -/
def power_table_x (n : ℕ) : List (SPoly × SPoly) :=
  (List.range (n + 1)).map powX

/-- The list `_power_table_y(n)` of `JVP.py`. -/
def power_table_y (n : ℕ) : List (SPoly × SPoly) :=
  (List.range (n + 1)).map powY

/-- `jones_to_Vxp` of `JVP.py`.  The input dict is embedded as an association
list (Python dict iteration order) with integer exponent keys.  The Python
code first sizes the two power tables by `max_pos` / `max_neg` and then only
indexes them at `k`, `2*k`, `-k` or `2*(-k)`, all within bounds, so the
lookup `X[idx]` is embedded as `powX idx` (see `power_table_x`).  Terms with
coefficient 0 are skipped; a coefficient of exactly 1 skips the scalar
multiplication, as in the source.  `jones_to_Vxp_step` is the body of the
accumulation loop `for k, c in coefs.items()`. -/
def jones_to_Vxp_step (input_q_is_half_power : Bool) (AB : SPoly × SPoly)
    (kc : ℤ × ℤ) : SPoly × SPoly :=
  let k := kc.1
  let c := kc.2
  if c = 0 then AB
  else
    let Ak_Bk :=
      if 0 ≤ k then
        powX (if input_q_is_half_power then k.toNat else (2 * k).toNat)
      else
        powY (if input_q_is_half_power then (-k).toNat else (2 * (-k)).toNat)
    let Ak_Bk :=
      if c = 1 then Ak_Bk
      else (poly_scalar_mul Ak_Bk.1 c, poly_scalar_mul Ak_Bk.2 c)
    (poly_add AB.1 Ak_Bk.1, poly_add AB.2 Ak_Bk.2)

/-- The accumulation loop of `jones_to_Vxp`, folded over the dict entries in
iteration order from the `A_total, B_total = {}, {}` start (the early return
for an empty dict coincides with the empty fold). -/
def jones_to_Vxp (coefs : List (ℤ × ℤ)) (input_q_is_half_power : Bool) :
    SPoly × SPoly :=
  coefs.foldl (jones_to_Vxp_step input_q_is_half_power)
    (SPoly.empty, SPoly.empty)

/-- `taylor_from_jones` of `BLexpansion.py`.  The coefficient dict is an
association list; `_as_fraction_exponent` becomes the rational `k / den`.
`M m` is the power sum `sum c * r^m` accumulated over the nonzero terms in
list order (the source keeps `rp = r^m` incrementally); the returned list is
`[M 0 / 0!, ..., M n / n!]`. -/
def taylor_from_jones (coefs : List (ℤ × ℤ)) (n : ℕ) (exponent_den : ℤ) :
    List ℚ :=
  (List.range (n + 1)).map (fun m =>
    (((coefs.filter (fun kc => kc.2 ≠ 0)).map
          (fun kc => ((kc.1 : ℚ) / (exponent_den : ℚ), kc.2))).foldl
        (fun acc rc => acc + (rc.2 : ℚ) * rc.1 ^ m) 0) /
      (Nat.factorial m : ℚ))

/-- First index of an element satisfying `p`, or `none`: the embedding of the
Python idiom `[k for k, i in enumerate(l) if cond][0]` whose `[0]` raises
`IndexError` (↦ `none`) when nothing matches. -/
def firstIdx {α : Type} (l : List α) (p : α → Bool) : Option ℕ :=
  match l with
  | [] => none
  | a :: t => if p a then some 0 else (firstIdx t p).map (· + 1)

/-- `Jm_bl` of `Jm_triviality.py`: the position (index in the full Taylor
list) of the first nonzero entry after the constant term, `none` when the
Python lambda would raise `IndexError`. -/
def Jm_bl (c : List ℚ) : Option ℕ :=
  (firstIdx (c.drop 1) (fun i => decide (i ≠ 0))).map (· + 1)

/-- `Jm_jvp` of `Jm_triviality.py`: merge `A` and `B` degreewise into a dense
list up to `max(A | B)`, skip degree 0 and return the 1-based position of the
first nonzero merged coefficient; `none` when Python would raise
(`max` of an empty dict union, or the `[0]` of an empty comprehension). -/
def Jm_jvp (A B : SPoly) : Option ℕ :=
  if h : (A.keys ∪ B.keys).Nonempty then
    (firstIdx
        (((List.range ((A.keys ∪ B.keys).max' h + 1)).map
            (fun i => A.get i + B.get i)).drop 1)
        (fun c => decide (c ≠ 0))).map (· + 1)
  else none

/-- The `"JVP"` entry of the `Jtransform` dict of `Jm_triviality.py`:
`Jm_jvp(*jones_to_Vxp(coefs=coeff))` with the default
`input_q_is_half_power=False`. -/
def Jtransform_JVP (coeff : List (ℤ × ℤ)) : Option ℕ :=
  Jm_jvp (jones_to_Vxp coeff false).1 (jones_to_Vxp coeff false).2

/-- The `"BL"` entry of the `Jtransform` dict of `Jm_triviality.py`:
`Jm_bl(taylor_from_jones(coefs=coeff, n=11))` with the default
`exponent_den=1`. -/
def Jtransform_BL (coeff : List (ℤ × ℤ)) : Option ℕ :=
  Jm_bl (taylor_from_jones coeff 11 1)

/-- Lookup in the `Jtransform` dict: an unknown representation key raises
`KeyError` inside the classifier's `try`, embedded as `none`. -/
def Jtransform (rep : String) (coeff : List (ℤ × ℤ)) : Option ℕ :=
  if rep = "JVP" then Jtransform_JVP coeff
  else if rep = "BL" then Jtransform_BL coeff
  else none

/-- The trefoil coefficient map `{4: -1, 3: 1, 1: 1}`. -/
def trefoilMap : List (ℤ × ℤ) := [(4, -1), (3, 1), (1, 1)]

/-- Python `s.split(sep)` for a one-character separator: split on every
occurrence, keeping empty pieces; the result is never the empty list. -/
def pySplit (sep : Char) : List Char → List (List Char)
  | [] => [[]]
  | c :: t =>
    if c = sep then [] :: pySplit sep t
    else
      match pySplit sep t with
      | [] => [[c]]
      | h :: r => (c :: h) :: r

/-- The `numerics` lambda of `process_split_file`:
`''.join([c for c in s if c.isdigit()])[:l]`. -/
def numerics (s : String) (l : ℕ) : String :=
  String.mk ((s.toList.filter Char.isDigit).take l)

/-- Python `c in s` for a single character. -/
def containsChar (s : String) (c : Char) : Bool :=
  s.toList.any (· = c)

/-- Whether the pattern is a prefix of the list (helper for substring and
byte-level searches). -/
def matchesAt : List Char → List Char → Bool
  | _, [] => true
  | [], _ :: _ => false
  | a :: h, b :: p => a = b && matchesAt h p

/-- Python `t in s` for strings: some position of `s` starts with `t`. -/
def containsStr (s t : String) : Bool :=
  (List.range (s.toList.length + 1)).any (fun i => matchesAt (s.toList.drop i) t.toList)

/-- Digit-string to number (helper for Python `int`). -/
def parseNatDigits (l : List Char) : Option ℕ :=
  if l = [] then none
  else if l.all Char.isDigit then
    some (l.foldl (fun acc c => acc * 10 + (c.toNat - '0'.toNat)) 0)
  else none

/-- Python `int(s)`: optional sign then digits; anything else raises
`ValueError`, embedded as `none`. -/
def parseIntPy : List Char → Option ℤ
  | '-' :: t => (parseNatDigits t).map (fun n => -(n : ℤ))
  | t => (parseNatDigits t).map (fun n => (n : ℤ))

/-- The crossing bucket of a label, from `process_split_file`:
`knot_label.split('_')[0] if ('_' in knot_label and 'jones' not in
knot_label) else numerics(knot_label, 2)`. -/
def bucketOf (knot_label : String) : String :=
  if containsChar knot_label '_' && !(containsStr knot_label "jones") then
    String.mk ((pySplit '_' knot_label.toList).headD [])
  else numerics knot_label 2

/-- The numeric knot identifier of a label, from `process_split_file`:
`int(knot_label.split('_')[-1].split(':')[-1].split('a')[-1].split('n')[-1])`;
`none` when `int` raises. -/
def knotIdOf (knot_label : String) : Option ℤ :=
  parseIntPy
    ((pySplit 'n'
        ((pySplit 'a'
            ((pySplit ':'
                ((pySplit '_' knot_label.toList).getLastD [])).getLastD [])).getLastD
          [])).getLastD [])

/-- One entry of `local_Jm_table` (and of the merged table): the
`['', 2, defaultdict(int)]` triple of maximal-Jm holder label, running
maximal Jm (initialised to 2), and Jm histogram. -/
structure TEntry where
  holder : String
  maxm : ℕ
  hist : ℕ → ℕ

/-- One representative run `[crossings, first_id, last_id, knot_label]` of
`local_knot_ids`. -/
structure KnotRun where
  bucket : String
  lo : ℤ
  hi : ℤ
  label : String
deriving DecidableEq

/-- Classifier configuration: the `--R` representation, the module globals
`sample_interval` (set from `--S`) and `min_m`. -/
structure Cfg where
  rep : String
  sample_interval : ℤ
  min_m : ℕ

/-- Worker-local classifier state: `local_Jm_table` (total over bucket
labels; only the keys in `validBuckets` are ever touched) and
`local_knot_ids`. -/
structure WState where
  table : String → TEntry
  knotIds : ℕ → List KnotRun

/-- The key set of `local_Jm_table`: `{str(i) for i in range(1, 20)}`;
a bucket outside it raises `KeyError` (record skipped). -/
def validBuckets : List String :=
  (List.range 19).map (fun i => toString (i + 1))

/-- The initial worker state: every bucket at `['', 2, defaultdict(int)]`
and every run list empty. -/
def initState : WState :=
  ⟨fun _ => ⟨"", 2, fun _ => 0⟩, fun _ => []⟩

/-- The run-update block of `process_split_file` (the body under
`if m > min_m:`): start a new run when the list is empty, the identifier
jumped past `last + sample_interval`, or the bucket changed; extend the open
run by one when the identifier is the immediate successor; otherwise leave
the list unchanged. -/
def stepRuns (sample_interval : ℤ) (runs : List KnotRun) (crossings : String)
    (knot_id : ℤ) (knot_label : String) : List KnotRun :=
  match runs.getLast? with
  | none => runs ++ [⟨crossings, knot_id, knot_id, knot_label⟩]
  | some r =>
    if knot_id > r.hi + sample_interval ∨ crossings ≠ r.bucket then
      runs ++ [⟨crossings, knot_id, knot_id, knot_label⟩]
    else if knot_id = r.hi + 1 then
      runs.dropLast ++ [⟨r.bucket, r.lo, r.hi + 1, r.label⟩]
    else runs

/-- `local_Jm_table[crossings][2][m] += 1`. -/
def updateHist (e : TEntry) (m : ℕ) : TEntry :=
  { e with hist := fun m' => if m' = m then e.hist m + 1 else e.hist m' }

/-- `if m > local_Jm_table[crossings][1]: local_Jm_table[crossings][:2] =
[knot_label, m]`. -/
def updateMax (e : TEntry) (knot_label : String) (m : ℕ) : TEntry :=
  if m > e.maxm then { e with holder := knot_label, maxm := m } else e

/-- The per-record body of the streaming loop of `process_split_file`.
`none` embeds an exception raised outside the record-level `try` (the
`int(...)` of the identifier), which aborts the shard loop; `some s` with a
possibly-updated state is a processed or skipped record.  Engine exceptions,
a bucket outside `validBuckets` (`KeyError` before any mutation) and
`m ≥ 10` (`KeyError` on `local_knot_ids[m]`, after the histogram increment)
are all caught by the record-level `except` and skip the record. -/
def process_record (cfg : Cfg) (s : WState) (knot_label : String)
    (coefs : List (ℤ × ℤ)) : Option WState :=
  if knot_label = "0_1" then some s
  else if coefs = [] then some s
  else
    let crossings := bucketOf knot_label
    match knotIdOf knot_label with
    | none => none
    | some knot_id =>
      match Jtransform cfg.rep coefs with
      | none => some s
      | some m =>
        if crossings ∈ validBuckets then
          let s1 : WState :=
            { s with
              table := fun b =>
                if b = crossings then updateHist (s.table b) m else s.table b }
          if m > cfg.min_m then
            if m < 10 then
              let s2 : WState :=
                { s1 with
                  knotIds := fun m' =>
                    if m' = m then
                      stepRuns cfg.sample_interval (s1.knotIds m') crossings
                        knot_id knot_label
                    else s1.knotIds m' }
              some
                { s2 with
                  table := fun b =>
                    if b = crossings then updateMax (s2.table b) knot_label m
                    else s2.table b }
            else some s1
          else
            some
              { s1 with
                table := fun b =>
                  if b = crossings then updateMax (s1.table b) knot_label m
                  else s1.table b }
        else some s

/-- The streaming loop of `process_split_file` over the already-parsed
`(label, coeffs)` records of one shard: a record-level abort (`none` step)
falls into the shard-level `except`, which returns whatever state was
accumulated so far. -/
def process_split_file (cfg : Cfg) (records : List (String × List (ℤ × ℤ)))
    (s : WState) : WState :=
  match records with
  | [] => s
  | r :: rest =>
    match process_record cfg s r.1 r.2 with
    | none => s
    | some s' => process_split_file cfg rest s'

/-- The probability derivation of `main` for one crossing bucket `c` with
merged entry `d = [holder, maxm, hist]` (hist an insertion-ordered dict):
`data[c]` is set to `[p/n_knots for i, p in d[2].items() if i <= d[1]]`
exactly when `d[0]` is truthy and `n_knots > 0`. -/
def probsForBucket (holder : String) (maxm : ℕ) (hist : List (ℕ × ℕ)) :
    Option (List ℚ) :=
  if holder ≠ "" then
    let n_knots : ℕ := (hist.map (·.2)).sum
    if n_knots > 0 then
      some ((hist.filter (fun ip => ip.1 ≤ maxm)).map
        (fun ip => (ip.2 : ℚ) / (n_knots : ℚ)))
    else none
  else none

/-- Python ASCII whitespace, as stripped by `bytes.lstrip`/`bytes.rstrip`. -/
def pyIsSpace (c : Char) : Bool :=
  c = ' ' || c = '\t' || c = '\n' || c = '\r' || c = '\x0b' || c = '\x0c'

/-- `bytes.lstrip()`. -/
def pyLstrip (l : List Char) : List Char :=
  l.dropWhile pyIsSpace

/-- `bytes.rstrip()`. -/
def pyRstrip (l : List Char) : List Char :=
  (l.reverse.dropWhile pyIsSpace).reverse

/-- Python `hay.find(pat, start)`: lowest match position at or after `start`
(a negative `start` counts from the end), `-1` when absent. -/
def pyFindFrom (hay pat : List Char) (start : ℤ) : ℤ :=
  let st : ℕ :=
    if start < 0 then (max 0 ((hay.length : ℤ) + start)).toNat else start.toNat
  match (List.range (hay.length + 1)).find?
      (fun i => decide (st ≤ i) && matchesAt (hay.drop i) pat) with
  | some i => (i : ℤ)
  | none => -1

/-- Python `hay.rfind(c)` for a single character: highest match position,
`-1` when absent. -/
def pyRFindChar (hay : List Char) (c : Char) : ℤ :=
  match ((List.range hay.length).filter (fun i => hay.getD i ' ' = c)).getLast? with
  | some i => (i : ℤ)
  | none => -1

/-- The inner backward loop of `find_record_boundary_forward`: having just
read the byte at index `j`, `while byte != b'"': f.seek(-2, 1); byte =
f.read(1)`, returning the position right after the quote; seeking before the
start of the file raises `OSError`. -/
def backToQuote (file : List Char) : ℕ → Except String ℕ
  | 0 =>
    if file.getD 0 ' ' = '"' then .ok 1 else .error "OSError: negative seek"
  | j + 1 =>
    if file.getD (j + 1) ' ' = '"' then .ok (j + 2) else backToQuote file j

/-- The forward byte scan of `find_record_boundary_forward`: read bytes one
at a time while fewer than `max_search` bytes have been consumed; on the
first alphabetic byte or `b'_'` back up to the preceding quote.  At the end
of the file `f.read(1)` returns `b''` forever and the Python loop never
terminates; that point is embedded as the `none` ("no boundary") result and
is not reached by any theorem below. -/
def fwdScan (file : List Char) : ℕ → ℕ → Except String (Option ℕ)
  | _, 0 => .ok none
  | pos, rem + 1 =>
    if file.length ≤ pos then .ok none
    else
      let b := file.getD pos ' '
      if b.isAlpha || b = '_' then (backToQuote file pos).map some
      else fwdScan file (pos + 1) rem

/-- `find_record_boundary_forward` of `Jm_triviality.py`, scanning from
`startPos` with window `maxSearch`. -/
def find_record_boundary_forward (file : List Char) (startPos maxSearch : ℕ) :
    Except String (Option ℕ) :=
  fwdScan file startPos maxSearch

/-- `ultra_fast_split` of `Jm_triviality.py`, over the corpus file as a byte
(ASCII character) list, returning the list of shard file contents.  Raised
`OSError`s (negative seeks, in particular `f.seek(-10000, 2)` on a file
shorter than 10000 bytes) and a zero shard count's `ZeroDivisionError` are
embedded as `Except.error`.  Diagnostic prints and the warning messages are
not modelled. -/
def ultra_fast_split (file : List Char) (n_splits : ℕ) :
    Except String (List (List Char)) :=
  let file_size := file.length
  let header := file.take 10000
  let ds0 := pyFindFrom header "\"data\"".toList 0
  let data_start : ℤ := pyFindFrom header ": \x7b".toList ds0 + 3
  if (file_size : ℤ) - 10000 < 0 then .error "OSError: negative seek"
  else
    let footer := file.drop (file_size - 10000)
    let data_end : ℤ := (file_size : ℤ) - footer.length + pyRFindChar footer '\x7d'
    let data_size := data_end - data_start
    if n_splits = 0 then .error "ZeroDivisionError"
    else
      let chunk_size := Int.fdiv data_size (n_splits : ℤ)
      let interior : Except String (List ℤ) :=
        (List.range (n_splits - 1)).foldlM
          (fun pts i0 => do
            let i := i0 + 1
            let target_pos := data_start + i * chunk_size
            if target_pos < 0 then throw "OSError: negative seek"
            else do
              let b1 ← find_record_boundary_forward file target_pos.toNat 100000
              match b1 with
              | some b =>
                if b ≠ 0 then pure (pts ++ [(b : ℤ)])
                else pure (pts ++ [target_pos])
              | none => do
                let b2 ← find_record_boundary_forward file target_pos.toNat 500000
                match b2 with
                | some b =>
                  if b ≠ 0 then pure (pts ++ [(b : ℤ)])
                  else pure (pts ++ [target_pos])
                | none => pure (pts ++ [target_pos]))
          [data_start]
      match interior with
      | .error e => .error e
      | .ok pts0 =>
        let split_points := pts0 ++ [data_end]
        (List.range (split_points.length - 1)).foldlM
          (fun files i =>
            let start := split_points.getD i 0 - (if 0 < i then 1 else 0)
            let endp := split_points.getD (i + 1) 0 - 1
            let chunk_bytes := endp - start
            if start < 0 then throw "OSError: negative seek"
            else
              let chunk0 :=
                if chunk_bytes < 0 then file.drop start.toNat
                else (file.drop start.toNat).take chunk_bytes.toNat
              let c1 := pyLstrip chunk0
              let c2 :=
                if c1.headD ' ' = ',' then pyLstrip (c1.drop 1) else c1
              let c3 := pyRstrip c2
              let c4 :=
                if c3.getLastD ' ' = ',' then pyRstrip c3.dropLast else c3
              let out :=
                "\x7b\"data\":\x7b".toList ++ c4 ++
                  (if i + 2 < split_points.length then ['\x7d'] else []) ++
                  ['\x7d']
              pure (files ++ [out]))
          []

/-- A corpus file of the documented shape (§6 of the spec), 81 bytes long:
`{"meta": {}, "data": {"3_1": {"coeffs": {"1": 1}}, "4a_1": {"coeffs":
{"2": 1}}}}`. -/
def smallCorpus : List Char :=
  ("\x7b\"meta\": \x7b\x7d, \"data\": \x7b\"3_1\": \x7b\"coeffs\": " ++
    "\x7b\"1\": 1\x7d\x7d, \"4a_1\": \x7b\"coeffs\": \x7b\"2\": 1\x7d\x7d\x7d\x7d").toList

/-- The integer power sum `sum c_k * k^m` of a coefficient map: the exact
value of the `M[m]` accumulator of `taylor_from_jones` at `exponent_den = 1`
(see `taylor_M_eq_Mint`). -/
def Mint (C : List (ℤ × ℤ)) (m : ℕ) : ℤ :=
  (C.map (fun kc => kc.2 * kc.1 ^ m)).sum

/-! The bridge to the Laurent-polynomial ring `ℤ[T, T⁻¹]`, realised as
`AddMonoidAlgebra ℤ ℤ`.  Substituting `p := T - T⁻¹` and `x := T` turns the
`A + B·x` normal form computed by `jones_to_Vxp` into an ordinary Laurent
polynomial, and the weighted power sums `Sm` of its exponents recover the
power sums `Mint` computed by `taylor_from_jones`. -/
abbrev LaurentZ := AddMonoidAlgebra ℤ ℤ

def Sm (G : LaurentZ) (m : ℕ) : ℤ := Finsupp.sum G fun j c => c * j ^ m

noncomputable def Wp : LaurentZ :=
  AddMonoidAlgebra.single 1 1 + AddMonoidAlgebra.single (-1) (-1)

noncomputable def lT : LaurentZ := AddMonoidAlgebra.single 1 1

noncomputable def lTinv : LaurentZ := AddMonoidAlgebra.single (-1) 1

/-- Evaluation of a sparse `p`-polynomial at `p := T - T⁻¹` (which is `Wp`)
inside the Laurent ring. -/
noncomputable def toLP (P : SPoly) : LaurentZ :=
  ∑ d in P.keys, AddMonoidAlgebra.single 0 (P.get d) * Wp ^ d

/-- The Laurent polynomial `sum c_k T^(2k)` represented by an integer-power
coefficient map (`q = x^2` with `x := T`). -/
noncomputable def VL (C : List (ℤ × ℤ)) : LaurentZ :=
  (C.map (fun kc => AddMonoidAlgebra.single (2 * kc.1) kc.2)).sum

/-- An even polynomial in `p`: all odd-degree coefficients vanish. -/
def EvenP (P : SPoly) : Prop := ∀ d, d % 2 = 1 → P.get d = 0

/-- An odd polynomial in `p`: all even-degree coefficients vanish. -/
def OddP (P : SPoly) : Prop := ∀ d, d % 2 = 0 → P.get d = 0

/-- The degreewise merge `A.get d + B.get d` of the two output polynomials of
`jones_to_Vxp` at the integer-power convention: the dense coefficients that
`Jm_jvp` scans. -/
def mergedCoeff (C : List (ℤ × ℤ)) (d : ℕ) : ℤ :=
  (jones_to_Vxp C false).1.get d + (jones_to_Vxp C false).2.get d

/-- The mirror of a coefficient map: every exponent negated, coefficients
kept (Python `{-k: c for k, c in coefs.items()}`). -/
def mirrorMap (C : List (ℤ × ℤ)) : List (ℤ × ℤ) :=
  C.map (fun kc => (-kc.1, kc.2))

theorem firstIdx_eq_some_iff {α : Type} (p : α → Bool) (d : α)
    (hd : p d = false) (l : List α) (i : ℕ) :
    firstIdx l p = some i ↔
      (p (l.getD i d) = true ∧ ∀ j, j < i → p (l.getD j d) = false) := by
  induction l generalizing i with
  | nil =>
    simp only [firstIdx, List.getD_nil, hd]
    simp
  | cons a t ih =>
    simp only [firstIdx]
    by_cases hpa : p a
    · simp only [hpa, if_true]
      cases i with
      | zero => simp [hpa]
      | succ n =>
        constructor
        · intro h; exact absurd h (by simp)
        · rintro ⟨-, hall⟩
          have := hall 0 (Nat.succ_pos n)
          simp [hpa] at this
    · rw [if_neg hpa]
      cases i with
      | zero =>
        simp [Option.map_eq_some', hpa]
      | succ n =>
        rw [show ((firstIdx t p).map (· + 1) = some (n + 1)) ↔
            firstIdx t p = some n by
          simp [Option.map_eq_some']]
        rw [ih n]
        constructor
        · rintro ⟨h1, h2⟩
          refine ⟨by simpa using h1, ?_⟩
          intro j hj
          cases j with
          | zero => simpa using hpa
          | succ k => simpa using h2 k (Nat.lt_of_succ_lt_succ hj)
        · rintro ⟨h1, h2⟩
          refine ⟨by simpa using h1, ?_⟩
          intro j hj
          simpa using h2 (j + 1) (Nat.succ_lt_succ hj)

theorem firstIdx_eq_none_iff {α : Type} (p : α → Bool) (d : α)
    (hd : p d = false) (l : List α) :
    firstIdx l p = none ↔ ∀ j, p (l.getD j d) = false := by
  induction l with
  | nil => simp [firstIdx, hd]
  | cons a t ih =>
    simp only [firstIdx]
    by_cases hpa : p a
    · simp only [hpa, if_true]
      constructor
      · intro h; exact absurd h (by simp)
      · intro h
        have := h 0
        simp [hpa] at this
    · rw [if_neg hpa, Option.map_eq_none', ih]
      constructor
      · intro h j
        cases j with
        | zero => simpa using hpa
        | succ k => simpa using h k
      · intro h j
        simpa using h (j + 1)

theorem SPoly.get_not_mem (A : SPoly) (d : ℕ) (h : d ∉ A.keys) :
    A.get d = 0 := by
  simp [SPoly.get, h]

theorem SPoly.mem_of_get_ne (A : SPoly) (d : ℕ) (h : A.get d ≠ 0) :
    d ∈ A.keys := by
  by_contra hn
  exact h (A.get_not_mem d hn)

theorem SPoly.get_empty (d : ℕ) : SPoly.empty.get d = 0 := by
  simp [SPoly.empty, SPoly.get]

theorem SPoly.get_one (d : ℕ) :
    SPoly.one.get d = if d = 0 then 1 else 0 := by
  by_cases h : d = 0 <;> simp [SPoly.one, SPoly.get, h]

theorem get_poly_add (A B : SPoly) (d : ℕ) :
    (poly_add A B).get d = A.get d + B.get d := by
  show (if d ∈ (A.keys ∪ B.keys).filter (fun d => A.get d + B.get d ≠ 0)
      then A.get d + B.get d else 0) = A.get d + B.get d
  by_cases h : A.get d + B.get d = 0
  · rw [h]
    split <;> rfl
  · rw [if_pos]
    simp only [Finset.mem_filter, Finset.mem_union]
    refine ⟨?_, h⟩
    by_contra hn
    push_neg at hn
    rw [A.get_not_mem d hn.1, B.get_not_mem d hn.2] at h
    simp at h

theorem get_poly_scalar_mul (A : SPoly) (k : ℤ) (d : ℕ) :
    (poly_scalar_mul A k).get d = k * A.get d := by
  unfold poly_scalar_mul
  by_cases hk : k = 0
  · simp [hk, SPoly.get_empty]
  · rw [if_neg hk]
    by_cases hd : d ∈ A.keys <;> simp [SPoly.get, hd]

theorem get_poly_mul_p_zero (A : SPoly) : (poly_mul_p A).get 0 = 0 := by
  simp [poly_mul_p, SPoly.get]

theorem get_poly_mul_p_succ (A : SPoly) (d : ℕ) :
    (poly_mul_p A).get (d + 1) = A.get d := by
  have him : d + 1 ∈ A.keys.image (· + 1) ↔ d ∈ A.keys := by
    simp only [Finset.mem_image]
    constructor
    · rintro ⟨e, he, hee⟩
      have : e = d := by omega
      simpa [this] using he
    · intro h; exact ⟨d, h, rfl⟩
  by_cases hd : d ∈ A.keys <;>
    simp [poly_mul_p, SPoly.get, him, hd]

theorem getD_range_map {α : Type} (f : ℕ → α) (d : α) (n j : ℕ) :
    ((List.range n).map f).getD j d = if j < n then f j else d := by
  rcases Nat.lt_or_ge j n with h | h
  · rw [if_pos h]
    rw [List.getD_eq_getElem?_getD, List.getElem?_map, List.getElem?_range h]
    rfl
  · rw [if_neg (Nat.not_lt.mpr h)]
    rw [List.getD_eq_getElem?_getD, List.getElem?_map]
    rw [List.getElem?_eq_none (by simpa using h)]
    rfl

theorem getD_drop_one {α : Type} (l : List α) (d : α) (j : ℕ) :
    (l.drop 1).getD j d = l.getD (j + 1) d := by
  rw [List.getD_eq_getElem?_getD, List.getD_eq_getElem?_getD,
    List.getElem?_drop, Nat.add_comm 1 j]

theorem get_add_eq_zero_of_max_lt (A B : SPoly)
    (hne : (A.keys ∪ B.keys).Nonempty) (j : ℕ)
    (hj : (A.keys ∪ B.keys).max' hne < j) : A.get j + B.get j = 0 := by
  have hn : j ∉ A.keys ∪ B.keys := fun hm =>
    absurd (Finset.le_max' _ j hm) (Nat.not_le.mpr hj)
  simp only [Finset.mem_union, not_or] at hn
  rw [A.get_not_mem j hn.1, B.get_not_mem j hn.2, add_zero]

theorem mem_union_of_get_add_ne (A B : SPoly) (d : ℕ)
    (h : A.get d + B.get d ≠ 0) : d ∈ A.keys ∪ B.keys := by
  by_contra hn
  simp only [Finset.mem_union, not_or] at hn
  rw [A.get_not_mem d hn.1, B.get_not_mem d hn.2] at h
  simp at h

theorem Jm_jvp_eq_some_iff (A B : SPoly) (D : ℕ) :
    Jm_jvp A B = some D ↔
      (1 ≤ D ∧ A.get D + B.get D ≠ 0 ∧
        ∀ j, 1 ≤ j → j < D → A.get j + B.get j = 0) := by
  have hd0 : (fun c => decide (c ≠ 0)) (0 : ℤ) = false := by simp
  constructor
  · intro h
    unfold Jm_jvp at h
    split at h
    case isTrue hne =>
      rw [Option.map_eq_some'] at h
      obtain ⟨i, hi, hiD⟩ := h
      set M := (A.keys ∪ B.keys).max' hne with hM
      rw [firstIdx_eq_some_iff _ (0 : ℤ) hd0] at hi
      obtain ⟨hp, hall⟩ := hi
      rw [getD_drop_one, getD_range_map] at hp
      have hin : i + 1 < M + 1 := by
        by_contra hn
        rw [if_neg hn] at hp
        simp at hp
      rw [if_pos hin] at hp
      have hne1 : A.get (i + 1) + B.get (i + 1) ≠ 0 := by simpa using hp
      subst hiD
      refine ⟨Nat.le_add_left 1 i, hne1, ?_⟩
      intro j h1j hji
      obtain ⟨j', rfl⟩ : ∃ j', j = j' + 1 := ⟨j - 1, by omega⟩
      have := hall j' (by omega)
      rw [getD_drop_one, getD_range_map] at this
      by_cases hjin : j' + 1 < M + 1
      · rw [if_pos hjin] at this
        simpa using this
      · exact get_add_eq_zero_of_max_lt A B hne (j' + 1) (by omega)
    case isFalse => exact absurd h (by simp)
  · rintro ⟨h1, h2, h3⟩
    have hmem := mem_union_of_get_add_ne A B D h2
    have hne : (A.keys ∪ B.keys).Nonempty := ⟨D, hmem⟩
    have hDle : D ≤ (A.keys ∪ B.keys).max' hne := Finset.le_max' _ D hmem
    unfold Jm_jvp
    rw [dif_pos hne]
    have hfi : firstIdx
        (((List.range ((A.keys ∪ B.keys).max' hne + 1)).map
            (fun i => A.get i + B.get i)).drop 1)
        (fun c => decide (c ≠ 0)) = some (D - 1) := by
      rw [firstIdx_eq_some_iff _ (0 : ℤ) hd0]
      constructor
      · rw [getD_drop_one, getD_range_map, if_pos (by omega)]
        have : D - 1 + 1 = D := by omega
        rw [this]
        simpa using h2
      · intro j hj
        rw [getD_drop_one, getD_range_map]
        by_cases hjin : j + 1 < (A.keys ∪ B.keys).max' hne + 1
        · rw [if_pos hjin]
          simpa using h3 (j + 1) (by omega) (by omega)
        · rw [if_neg hjin]
          simp
    rw [hfi]
    simp only [Option.map_some']
    congr 1
    omega

theorem Jm_jvp_eq_none_iff (A B : SPoly) :
    Jm_jvp A B = none ↔ ∀ j, 1 ≤ j → A.get j + B.get j = 0 := by
  have hd0 : (fun c => decide (c ≠ 0)) (0 : ℤ) = false := by simp
  unfold Jm_jvp
  split
  case isTrue hne =>
    rw [Option.map_eq_none']
    rw [firstIdx_eq_none_iff _ (0 : ℤ) hd0]
    constructor
    · intro h j h1j
      obtain ⟨j', rfl⟩ : ∃ j', j = j' + 1 := ⟨j - 1, by omega⟩
      have := h j'
      rw [getD_drop_one, getD_range_map] at this
      by_cases hjin : j' + 1 < (A.keys ∪ B.keys).max' hne + 1
      · rw [if_pos hjin] at this
        simpa using this
      · exact get_add_eq_zero_of_max_lt A B hne (j' + 1) (by omega)
    · intro h j
      rw [getD_drop_one, getD_range_map]
      by_cases hjin : j + 1 < (A.keys ∪ B.keys).max' hne + 1
      · rw [if_pos hjin]
        simpa using h (j + 1) (by omega)
      · rw [if_neg hjin]
        simp
  case isFalse hne =>
    simp only [true_iff]
    intro j h1j
    have hkeys : A.keys ∪ B.keys = ∅ := Finset.not_nonempty_iff_eq_empty.mp hne
    have hn : j ∉ A.keys ∪ B.keys := by simp [hkeys]
    simp only [Finset.mem_union, not_or] at hn
    rw [A.get_not_mem j hn.1, B.get_not_mem j hn.2, add_zero]

theorem Mint_cons (kc : ℤ × ℤ) (t : List (ℤ × ℤ)) (m : ℕ) :
    Mint (kc :: t) m = kc.2 * kc.1 ^ m + Mint t m := by
  simp [Mint]

theorem foldl_taylor_eq (m : ℕ) (l : List (ℚ × ℤ)) (a : ℚ) :
    l.foldl (fun acc rc => acc + (rc.2 : ℚ) * rc.1 ^ m) a =
      a + (l.map (fun rc => (rc.2 : ℚ) * rc.1 ^ m)).sum := by
  induction l generalizing a with
  | nil => simp
  | cons x t ih => simp [ih, add_assoc]

theorem taylor_M_eq_Mint (C : List (ℤ × ℤ)) (m : ℕ) :
    ((C.filter (fun kc => kc.2 ≠ 0)).map
        (fun kc => ((kc.1 : ℚ) / ((1 : ℤ) : ℚ), kc.2))).foldl
      (fun acc rc => acc + (rc.2 : ℚ) * rc.1 ^ m) 0 = (Mint C m : ℚ) := by
  rw [foldl_taylor_eq, zero_add, List.map_map]
  simp only [Function.comp_def, Int.cast_one]
  induction C with
  | nil => simp [Mint]
  | cons kc t ih =>
    rw [List.filter_cons]
    by_cases h : kc.2 = 0
    · rw [if_neg (by simp [h])]
      rw [show Mint (kc :: t) m = Mint t m by simp [Mint_cons, h]]
      exact ih
    · rw [if_pos (by simp [h]), List.map_cons, List.sum_cons, Mint_cons]
      push_cast
      rw [ih]
      norm_num

theorem taylor_getD (C : List (ℤ × ℤ)) (j : ℕ) (hj : j < 12) :
    (taylor_from_jones C 11 1).getD j 0 =
      (Mint C j : ℚ) / (Nat.factorial j : ℚ) := by
  unfold taylor_from_jones
  rw [getD_range_map, if_pos hj, taylor_M_eq_Mint]

theorem taylor_getD_zero (C : List (ℤ × ℤ)) (j : ℕ) (hj : 12 ≤ j) :
    (taylor_from_jones C 11 1).getD j 0 = 0 := by
  unfold taylor_from_jones
  rw [getD_range_map, if_neg (by omega)]

theorem taylor_entry_ne_zero (C : List (ℤ × ℤ)) (j : ℕ) (hj : j < 12) :
    (taylor_from_jones C 11 1).getD j 0 ≠ 0 ↔ Mint C j ≠ 0 := by
  rw [taylor_getD C j hj, div_ne_zero_iff]
  have hf : (Nat.factorial j : ℚ) ≠ 0 := by
    exact_mod_cast Nat.factorial_ne_zero j
  simp [hf]

theorem Jtransform_BL_eq_some_iff (C : List (ℤ × ℤ)) (m : ℕ) :
    Jtransform_BL C = some m ↔
      (1 ≤ m ∧ m ≤ 11 ∧ Mint C m ≠ 0 ∧
        ∀ j, 1 ≤ j → j < m → Mint C j = 0) := by
  have hd0 : (fun i => decide (i ≠ 0)) (0 : ℚ) = false := by simp
  unfold Jtransform_BL Jm_bl
  constructor
  · intro h
    rw [Option.map_eq_some'] at h
    obtain ⟨i, hi, him⟩ := h
    rw [firstIdx_eq_some_iff _ (0 : ℚ) hd0] at hi
    obtain ⟨hp, hall⟩ := hi
    rw [getD_drop_one] at hp
    replace hp : (taylor_from_jones C 11 1).getD (i + 1) 0 ≠ 0 := by
      simpa using hp
    have hin : i + 1 < 12 := by
      by_contra hn
      exact hp (taylor_getD_zero C (i + 1) (by omega))
    subst him
    refine ⟨by omega, by omega, (taylor_entry_ne_zero C (i + 1) hin).mp hp, ?_⟩
    intro j h1j hj
    obtain ⟨j', rfl⟩ : ∃ j', j = j' + 1 := ⟨j - 1, by omega⟩
    have hz := hall j' (by omega)
    rw [getD_drop_one] at hz
    replace hz : (taylor_from_jones C 11 1).getD (j' + 1) 0 = 0 := by
      simpa using hz
    by_contra hMnz
    exact (taylor_entry_ne_zero C (j' + 1) (by omega)).mpr hMnz hz
  · rintro ⟨h1, h2, h3, h4⟩
    have hfi : firstIdx ((taylor_from_jones C 11 1).drop 1)
        (fun i => decide (i ≠ 0)) = some (m - 1) := by
      rw [firstIdx_eq_some_iff _ (0 : ℚ) hd0]
      constructor
      · rw [getD_drop_one]
        have he : m - 1 + 1 = m := by omega
        rw [he]
        simpa using (taylor_entry_ne_zero C m (by omega)).mpr h3
      · intro j hj
        rw [getD_drop_one]
        have hz : (taylor_from_jones C 11 1).getD (j + 1) 0 = 0 := by
          rw [taylor_getD C (j + 1) (by omega), h4 (j + 1) (by omega) (by omega)]
          simp
        rw [hz]
        simp
    rw [hfi]
    simp only [Option.map_some']
    congr 1
    omega

theorem Jtransform_BL_eq_none_iff (C : List (ℤ × ℤ)) :
    Jtransform_BL C = none ↔ ∀ j, 1 ≤ j → j ≤ 11 → Mint C j = 0 := by
  have hd0 : (fun i => decide (i ≠ 0)) (0 : ℚ) = false := by simp
  unfold Jtransform_BL Jm_bl
  rw [Option.map_eq_none', firstIdx_eq_none_iff _ (0 : ℚ) hd0]
  constructor
  · intro h j h1j hj
    have hz := h (j - 1)
    rw [getD_drop_one] at hz
    have hje : j - 1 + 1 = j := by omega
    rw [hje] at hz
    replace hz : (taylor_from_jones C 11 1).getD j 0 = 0 := by
      simpa using hz
    by_contra hMnz
    exact (taylor_entry_ne_zero C j (by omega)).mpr hMnz hz
  · intro h j
    rw [getD_drop_one]
    by_cases hin : j + 1 < 12
    · rw [show (taylor_from_jones C 11 1).getD (j + 1) 0 = 0 by
        rw [taylor_getD C (j + 1) hin, h (j + 1) (by omega) (by omega)]
        simp]
      simp
    · rw [taylor_getD_zero C (j + 1) (by omega)]
      simp

theorem Sm_zero (m : ℕ) : Sm 0 m = 0 := Finsupp.sum_zero_index

theorem Sm_add (G H : LaurentZ) (m : ℕ) : Sm (G + H) m = Sm G m + Sm H m :=
  Finsupp.sum_add_index' (fun j => by simp) (fun j c1 c2 => by ring)

theorem Sm_single (a b : ℤ) (m : ℕ) :
    Sm (AddMonoidAlgebra.single a b) m = b * a ^ m :=
  Finsupp.sum_single_index (by simp)

theorem Sm_mul (G H : LaurentZ) (m : ℕ) :
    Sm (G * H) m = ∑ i in Finset.range (m + 1),
      (m.choose i : ℤ) * Sm G i * Sm H (m - i) := by
  induction G using Finsupp.induction_linear with
  | h0 => simp [Sm_zero]
  | hadd f g hf hg =>
    rw [add_mul, Sm_add, hf, hg, ← Finset.sum_add_distrib]
    apply Finset.sum_congr rfl
    intro i _
    rw [Sm_add]
    ring
  | hsingle a b =>
    induction H using Finsupp.induction_linear with
    | h0 => simp [Sm_zero]
    | hadd f g hf hg =>
      rw [mul_add, Sm_add, hf, hg, ← Finset.sum_add_distrib]
      apply Finset.sum_congr rfl
      intro i _
      rw [Sm_add]
      ring
    | hsingle a2 b2 =>
      rw [AddMonoidAlgebra.single_mul_single, Sm_single]
      have : ∀ i, Sm (AddMonoidAlgebra.single a b) i = b * a ^ i :=
        fun i => Sm_single a b i
      rw [add_pow]
      rw [Finset.mul_sum]
      apply Finset.sum_congr rfl
      intro i hi
      rw [Sm_single, Sm_single]
      ring

theorem Sm_W (m : ℕ) : Sm Wp m = 1 + (-1 : ℤ) ^ (m + 1) := by
  rw [Wp, Sm_add, Sm_single, Sm_single]
  ring

theorem Sm_W_zero : Sm Wp 0 = 0 := by rw [Sm_W]; norm_num

theorem Sm_W_one : Sm Wp 1 = 2 := by rw [Sm_W]; norm_num

theorem Sm_one (m : ℕ) : Sm 1 m = 0 ^ m := by
  rw [AddMonoidAlgebra.one_def, Sm_single, one_mul]

theorem Sm_T (m : ℕ) : Sm lT m = 1 := by
  rw [lT, Sm_single]
  simp

theorem Sm_W_pow_lt : ∀ d m : ℕ, m < d → Sm (Wp ^ d) m = 0
  | 0, m, h => absurd h (Nat.not_lt_zero m)
  | d + 1, m, h => by
    rw [pow_succ, Sm_mul]
    apply Finset.sum_eq_zero
    intro i hi
    rw [Finset.mem_range] at hi
    rcases Nat.lt_or_ge i d with hlt | hge
    · rw [Sm_W_pow_lt d i hlt]
      ring
    · have hid : i = d ∧ m = d := by omega
      have hmi : m - i = 0 := by omega
      rw [hmi, Sm_W_zero]
      ring

theorem Sm_W_pow_self : ∀ d : ℕ, Sm (Wp ^ d) d = 2 ^ d * (Nat.factorial d : ℤ)
  | 0 => by
    rw [pow_zero, Sm_one]
    norm_num
  | d + 1 => by
    rw [pow_succ, Sm_mul]
    rw [Finset.sum_eq_single d]
    · have hd1 : d + 1 - d = 1 := by omega
      rw [Sm_W_pow_self d, hd1, Sm_W_one, Nat.choose_succ_self_right,
        Nat.factorial_succ]
      push_cast
      ring
    · intro i hi hne
      rw [Finset.mem_range] at hi
      rcases Nat.lt_or_ge i d with hlt | hge
      · rw [Sm_W_pow_lt d i hlt]
        ring
      · have : i = d + 1 := by omega
        subst this
        have : d + 1 - (d + 1) = 0 := by omega
        rw [this, Sm_W_zero]
        ring
    · intro hd
      exact absurd (Finset.mem_range.mpr (by omega)) hd

theorem Sm_W_pow_T_lt (d m : ℕ) (h : m < d) : Sm (Wp ^ d * lT) m = 0 := by
  rw [Sm_mul]
  apply Finset.sum_eq_zero
  intro i hi
  rw [Finset.mem_range] at hi
  rw [Sm_W_pow_lt d i (by omega)]
  ring

theorem Sm_W_pow_T_self (d : ℕ) : Sm (Wp ^ d * lT) d = 2 ^ d * (Nat.factorial d : ℤ) := by
  rw [Sm_mul]
  rw [Finset.sum_eq_single d]
  · rw [Sm_W_pow_self d, Sm_T, Nat.choose_self]
    push_cast
    ring
  · intro i hi hne
    rw [Finset.mem_range] at hi
    rw [Sm_W_pow_lt d i (by omega)]
    ring
  · intro hd
    exact absurd (Finset.mem_range.mpr (by omega)) hd

theorem Sm_C_mul (c : ℤ) (G : LaurentZ) (m : ℕ) :
    Sm (AddMonoidAlgebra.single 0 c * G) m = c * Sm G m := by
  induction G using Finsupp.induction_linear with
  | h0 => simp [Sm_zero]
  | hadd f g hf hg => rw [mul_add, Sm_add, hf, hg, Sm_add]; ring
  | hsingle a b =>
    rw [AddMonoidAlgebra.single_mul_single, Sm_single, Sm_single]
    ring

theorem lT_mul_lTinv : lT * lTinv = 1 := by
  rw [lT, lTinv, AddMonoidAlgebra.single_mul_single]
  norm_num

theorem W_eq : Wp = lT - lTinv := by
  rw [Wp, lT, lTinv, sub_eq_add_neg]
  congr 1
  rw [← Finsupp.single_neg]

theorem T_sq : lT * lT = 1 + Wp * lT := by
  have h : lTinv * lT = 1 := by rw [mul_comm]; exact lT_mul_lTinv
  rw [W_eq]
  linear_combination h

theorem Tinv_eq : lT - Wp = lTinv := by
  rw [W_eq]
  ring

theorem toLP_sum_superset (P : SPoly) (s : Finset ℕ) (hs : P.keys ⊆ s) :
    toLP P = ∑ d in s, AddMonoidAlgebra.single 0 (P.get d) * Wp ^ d := by
  unfold toLP
  apply Finset.sum_subset hs
  intro d _ hd
  rw [P.get_not_mem d hd]
  simp

theorem toLP_empty : toLP SPoly.empty = 0 := by
  simp [toLP, SPoly.empty]

theorem toLP_one : toLP SPoly.one = 1 := by
  unfold toLP
  rw [show SPoly.one.keys = {0} from rfl, Finset.sum_singleton]
  rw [show SPoly.one.get 0 = 1 by simp [SPoly.one, SPoly.get]]
  rw [pow_zero, mul_one]
  exact AddMonoidAlgebra.one_def.symm

theorem toLP_poly_add (A B : SPoly) :
    toLP (poly_add A B) = toLP A + toLP B := by
  have hsub : (poly_add A B).keys ⊆ A.keys ∪ B.keys := Finset.filter_subset _ _
  rw [toLP_sum_superset (poly_add A B) _ hsub,
    toLP_sum_superset A (A.keys ∪ B.keys) Finset.subset_union_left,
    toLP_sum_superset B (A.keys ∪ B.keys) Finset.subset_union_right,
    ← Finset.sum_add_distrib]
  apply Finset.sum_congr rfl
  intro d _
  rw [get_poly_add, AddMonoidAlgebra.single_add, add_mul]

theorem toLP_poly_scalar_mul (A : SPoly) (k : ℤ) :
    toLP (poly_scalar_mul A k) = AddMonoidAlgebra.single 0 k * toLP A := by
  unfold poly_scalar_mul
  by_cases hk : k = 0
  · rw [if_pos hk, toLP_empty, hk]
    rw [show (AddMonoidAlgebra.single (0 : ℤ) (0 : ℤ) : LaurentZ) = 0 from
      Finsupp.single_zero 0]
    rw [zero_mul]
  · rw [if_neg hk]
    unfold toLP
    rw [Finset.mul_sum]
    apply Finset.sum_congr rfl
    intro d hd
    have hget : (SPoly.mk A.keys (fun d => k * A.coeff d)).get d =
        k * A.get d := by
      simp [SPoly.get, hd]
    rw [hget, ← mul_assoc, AddMonoidAlgebra.single_mul_single, zero_add]

theorem toLP_poly_mul_p (A : SPoly) : toLP (poly_mul_p A) = Wp * toLP A := by
  unfold toLP
  rw [show (poly_mul_p A).keys = A.keys.image (· + 1) from rfl]
  rw [Finset.sum_image (by intro x _ y _ h; omega)]
  rw [Finset.mul_sum]
  apply Finset.sum_congr rfl
  intro d _
  rw [show ∀ e, (poly_mul_p A).get e = (poly_mul_p A).get e from fun _ => rfl]
  rw [get_poly_mul_p_succ, pow_succ]
  ring

theorem toLP_xbase1 : toLP ⟨{0}, fun _ => 0⟩ = 0 := by
  unfold toLP
  rw [show (SPoly.mk {0} (fun _ => 0)).keys = {0} from rfl, Finset.sum_singleton]
  rw [show (SPoly.mk {0} (fun _ => 0)).get 0 = 0 by simp [SPoly.get]]
  simp

theorem toLP_ybase1 : toLP ⟨{1}, fun d => if d = 1 then -1 else 0⟩ =
    AddMonoidAlgebra.single 0 (-1) * Wp ^ 1 := by
  unfold toLP
  rw [show (SPoly.mk {1} (fun d => if d = 1 then (-1 : ℤ) else 0)).keys = {1}
    from rfl, Finset.sum_singleton]
  rw [show (SPoly.mk {1} (fun d => if d = 1 then (-1 : ℤ) else 0)).get 1 = -1
    by simp [SPoly.get]]

theorem single_zero_neg_one :
    (AddMonoidAlgebra.single (0 : ℤ) (-1 : ℤ) : LaurentZ) = -1 := by
  have h : (AddMonoidAlgebra.single (0 : ℤ) (-1 : ℤ) : LaurentZ) =
      -(AddMonoidAlgebra.single (0 : ℤ) (1 : ℤ)) := by
    rw [← Finsupp.single_neg]
  rw [h, ← AddMonoidAlgebra.one_def]

theorem powX_toLP : ∀ k : ℕ, toLP (powX k).1 + toLP (powX k).2 * lT = lT ^ k
  | 0 => by
    show toLP SPoly.one + toLP SPoly.empty * lT = lT ^ 0
    rw [toLP_one, toLP_empty, zero_mul, add_zero, pow_zero]
  | 1 => by
    show toLP ⟨{0}, fun _ => 0⟩ + toLP SPoly.one * lT = lT ^ 1
    rw [toLP_xbase1, toLP_one, zero_add, one_mul, pow_one]
  | k + 2 => by
    have ih := powX_toLP (k + 1)
    show toLP (powX (k + 1)).2 +
        toLP (poly_add (powX (k + 1)).1 (poly_mul_p (powX (k + 1)).2)) * lT =
        lT ^ (k + 2)
    rw [toLP_poly_add, toLP_poly_mul_p]
    linear_combination lT * ih - toLP (powX (k + 1)).2 * T_sq

theorem powY_toLP : ∀ k : ℕ,
    toLP (powY k).1 + toLP (powY k).2 * lT = lTinv ^ k
  | 0 => by
    show toLP SPoly.one + toLP SPoly.empty * lT = lTinv ^ 0
    rw [toLP_one, toLP_empty, zero_mul, add_zero, pow_zero]
  | 1 => by
    show toLP ⟨{1}, fun d => if d = 1 then -1 else 0⟩ + toLP SPoly.one * lT =
        lTinv ^ 1
    rw [toLP_ybase1, toLP_one, single_zero_neg_one, one_mul, pow_one, pow_one]
    rw [← Tinv_eq]
    ring
  | k + 2 => by
    have ih := powY_toLP (k + 1)
    show toLP (poly_add (powY (k + 1)).2
          (poly_scalar_mul (poly_mul_p (powY (k + 1)).1) (-1))) +
        toLP (powY (k + 1)).1 * lT = lTinv ^ (k + 2)
    rw [toLP_poly_add, toLP_poly_scalar_mul, toLP_poly_mul_p,
      single_zero_neg_one]
    linear_combination lTinv * ih - toLP (powY (k + 1)).2 * lT_mul_lTinv +
      toLP (powY (k + 1)).1 * Tinv_eq

theorem lT_pow (n : ℕ) : lT ^ n = AddMonoidAlgebra.single (n : ℤ) 1 := by
  rw [lT, AddMonoidAlgebra.single_pow]
  norm_num

theorem lTinv_pow (n : ℕ) :
    lTinv ^ n = AddMonoidAlgebra.single (-(n : ℤ)) 1 := by
  rw [lTinv, AddMonoidAlgebra.single_pow]
  norm_num

theorem vxp_step_toLP (AB : SPoly × SPoly) (kc : ℤ × ℤ) :
    toLP (jones_to_Vxp_step false AB kc).1 +
      toLP (jones_to_Vxp_step false AB kc).2 * lT =
    (toLP AB.1 + toLP AB.2 * lT) +
      AddMonoidAlgebra.single (2 * kc.1) kc.2 := by
  obtain ⟨k, c⟩ := kc
  by_cases hc : c = 0
  · simp [jones_to_Vxp_step, hc]
  · by_cases hk : 0 ≤ k
    · have htab := powX_toLP (2 * k).toNat
      have hT : lT ^ (2 * k).toNat = AddMonoidAlgebra.single (2 * k) 1 := by
        rw [lT_pow]
        congr 1
        omega
      rw [hT] at htab
      by_cases hc1 : c = 1
      · simp only [jones_to_Vxp_step, hc, if_neg hc, if_pos hk, if_pos hc1,
          Bool.false_eq_true, if_false]
        rw [toLP_poly_add, toLP_poly_add, add_mul]
        subst hc1
        linear_combination htab
      · simp only [jones_to_Vxp_step, hc, if_neg hc, if_pos hk, if_neg hc1,
          Bool.false_eq_true, if_false]
        rw [toLP_poly_add, toLP_poly_add, toLP_poly_scalar_mul,
          toLP_poly_scalar_mul, add_mul]
        have hsc : AddMonoidAlgebra.single (0 : ℤ) c *
            AddMonoidAlgebra.single (2 * k) (1 : ℤ) =
            AddMonoidAlgebra.single (2 * k) c := by
          rw [AddMonoidAlgebra.single_mul_single, zero_add, mul_one]
        linear_combination AddMonoidAlgebra.single 0 c * htab + hsc
    · have htab := powY_toLP (2 * (-k)).toNat
      have hT : lTinv ^ (2 * (-k)).toNat = AddMonoidAlgebra.single (2 * k) 1 := by
        rw [lTinv_pow]
        congr 1
        omega
      rw [hT] at htab
      by_cases hc1 : c = 1
      · simp only [jones_to_Vxp_step, hc, if_neg hc, if_neg hk, if_pos hc1,
          Bool.false_eq_true, if_false]
        rw [toLP_poly_add, toLP_poly_add, add_mul]
        subst hc1
        linear_combination htab
      · simp only [jones_to_Vxp_step, hc, if_neg hc, if_neg hk, if_neg hc1,
          Bool.false_eq_true, if_false]
        rw [toLP_poly_add, toLP_poly_add, toLP_poly_scalar_mul,
          toLP_poly_scalar_mul, add_mul]
        have hsc : AddMonoidAlgebra.single (0 : ℤ) c *
            AddMonoidAlgebra.single (2 * k) (1 : ℤ) =
            AddMonoidAlgebra.single (2 * k) c := by
          rw [AddMonoidAlgebra.single_mul_single, zero_add, mul_one]
        linear_combination AddMonoidAlgebra.single 0 c * htab + hsc

theorem vxp_fold_toLP (C : List (ℤ × ℤ)) : ∀ AB : SPoly × SPoly,
    toLP (C.foldl (jones_to_Vxp_step false) AB).1 +
      toLP (C.foldl (jones_to_Vxp_step false) AB).2 * lT =
      (toLP AB.1 + toLP AB.2 * lT) + VL C := by
  induction C with
  | nil => intro AB; simp [VL]
  | cons kc t ih =>
    intro AB
    rw [List.foldl_cons, ih (jones_to_Vxp_step false AB kc), vxp_step_toLP]
    rw [show VL (kc :: t) =
        AddMonoidAlgebra.single (2 * kc.1) kc.2 + VL t by simp [VL]]
    ring

theorem vxp_toLP (C : List (ℤ × ℤ)) :
    toLP (jones_to_Vxp C false).1 + toLP (jones_to_Vxp C false).2 * lT =
      VL C := by
  unfold jones_to_Vxp
  rw [vxp_fold_toLP, toLP_empty]
  ring

theorem Sm_finsetSum (s : Finset ℕ) (f : ℕ → LaurentZ) (m : ℕ) :
    Sm (∑ x in s, f x) m = ∑ x in s, Sm (f x) m := by
  classical
  induction s using Finset.induction_on with
  | empty => simp [Sm_zero]
  | insert hx ih =>
    rw [Finset.sum_insert hx, Finset.sum_insert hx, Sm_add, ih]

theorem Sm_toLP (P : SPoly) (m : ℕ) :
    Sm (toLP P) m = ∑ d in P.keys, P.get d * Sm (Wp ^ d) m := by
  unfold toLP
  rw [Sm_finsetSum]
  apply Finset.sum_congr rfl
  intro d _
  rw [Sm_C_mul]

theorem Sm_toLP_T (P : SPoly) (m : ℕ) :
    Sm (toLP P * lT) m = ∑ d in P.keys, P.get d * Sm (Wp ^ d * lT) m := by
  unfold toLP
  rw [Finset.sum_mul, Sm_finsetSum]
  apply Finset.sum_congr rfl
  intro d _
  rw [mul_assoc, Sm_C_mul]

theorem Sm_VL (C : List (ℤ × ℤ)) (m : ℕ) :
    Sm (VL C) m = 2 ^ m * Mint C m := by
  unfold VL Mint
  induction C with
  | nil => simp [Sm_zero]
  | cons kc t ih =>
    rw [List.map_cons, List.sum_cons, Sm_add, Sm_single, List.map_cons,
      List.sum_cons, ih]
    rw [mul_pow]
    ring

theorem Sm_decomp (C : List (ℤ × ℤ)) (m : ℕ) :
    2 ^ m * Mint C m =
      (∑ d in (jones_to_Vxp C false).1.keys,
        (jones_to_Vxp C false).1.get d * Sm (Wp ^ d) m) +
      (∑ d in (jones_to_Vxp C false).2.keys,
        (jones_to_Vxp C false).2.get d * Sm (Wp ^ d * lT) m) := by
  rw [← Sm_VL, ← vxp_toLP, Sm_add, Sm_toLP, Sm_toLP_T]

theorem EvenP_poly_add {A B : SPoly} (hA : EvenP A) (hB : EvenP B) :
    EvenP (poly_add A B) := fun d hd => by
  rw [get_poly_add, hA d hd, hB d hd, add_zero]

theorem OddP_poly_add {A B : SPoly} (hA : OddP A) (hB : OddP B) :
    OddP (poly_add A B) := fun d hd => by
  rw [get_poly_add, hA d hd, hB d hd, add_zero]

theorem EvenP_scalar {A : SPoly} (k : ℤ) (hA : EvenP A) :
    EvenP (poly_scalar_mul A k) := fun d hd => by
  rw [get_poly_scalar_mul, hA d hd, mul_zero]

theorem OddP_scalar {A : SPoly} (k : ℤ) (hA : OddP A) :
    OddP (poly_scalar_mul A k) := fun d hd => by
  rw [get_poly_scalar_mul, hA d hd, mul_zero]

theorem OddP_mul_p {A : SPoly} (hA : EvenP A) : OddP (poly_mul_p A) := by
  intro d hd
  cases d with
  | zero => exact get_poly_mul_p_zero A
  | succ e =>
    rw [get_poly_mul_p_succ]
    exact hA e (by omega)

theorem EvenP_mul_p {A : SPoly} (hA : OddP A) : EvenP (poly_mul_p A) := by
  intro d hd
  cases d with
  | zero => exact get_poly_mul_p_zero A
  | succ e =>
    rw [get_poly_mul_p_succ]
    exact hA e (by omega)

theorem EvenP_empty : EvenP SPoly.empty := fun d _ => SPoly.get_empty d

theorem OddP_empty : OddP SPoly.empty := fun d _ => SPoly.get_empty d

theorem EvenP_one : EvenP SPoly.one := by
  intro d hd
  rw [SPoly.get_one, if_neg (by omega)]

theorem EvenP_xbase : EvenP (⟨{0}, fun _ => 0⟩ : SPoly) := by
  intro d _
  by_cases h : d ∈ ({0} : Finset ℕ) <;> simp [SPoly.get, h]

theorem OddP_xbase : OddP (⟨{0}, fun _ => 0⟩ : SPoly) := by
  intro d _
  by_cases h : d ∈ ({0} : Finset ℕ) <;> simp [SPoly.get, h]

theorem OddP_ybase : OddP (⟨{1}, fun d => if d = 1 then -1 else 0⟩ : SPoly) := by
  intro d hd
  have hne : d ≠ 1 := by omega
  simp [SPoly.get, hne]

theorem powX_parity : ∀ k : ℕ,
    (k % 2 = 0 → EvenP (powX k).1 ∧ OddP (powX k).2) ∧
    (k % 2 = 1 → OddP (powX k).1 ∧ EvenP (powX k).2)
  | 0 =>
    ⟨fun _ => ⟨EvenP_one, OddP_empty⟩, fun h => absurd h (by norm_num)⟩
  | 1 =>
    ⟨fun h => absurd h (by norm_num), fun _ => ⟨OddP_xbase, EvenP_one⟩⟩
  | k + 2 => by
    have ih := powX_parity (k + 1)
    constructor
    · intro h2
      have hodd : (k + 1) % 2 = 1 := by omega
      obtain ⟨hA, hB⟩ := ih.2 hodd
      exact ⟨hB, OddP_poly_add hA (OddP_mul_p hB)⟩
    · intro h2
      have heven : (k + 1) % 2 = 0 := by omega
      obtain ⟨hA, hB⟩ := ih.1 heven
      exact ⟨hB, EvenP_poly_add hA (EvenP_mul_p hB)⟩

theorem powY_parity : ∀ k : ℕ,
    (k % 2 = 0 → EvenP (powY k).1 ∧ OddP (powY k).2) ∧
    (k % 2 = 1 → OddP (powY k).1 ∧ EvenP (powY k).2)
  | 0 =>
    ⟨fun _ => ⟨EvenP_one, OddP_empty⟩, fun h => absurd h (by norm_num)⟩
  | 1 =>
    ⟨fun h => absurd h (by norm_num), fun _ => ⟨OddP_ybase, EvenP_one⟩⟩
  | k + 2 => by
    have ih := powY_parity (k + 1)
    constructor
    · intro h2
      have hodd : (k + 1) % 2 = 1 := by omega
      obtain ⟨hA, hB⟩ := ih.2 hodd
      exact ⟨EvenP_poly_add hB (EvenP_scalar _ (EvenP_mul_p hA)), hA⟩
    · intro h2
      have heven : (k + 1) % 2 = 0 := by omega
      obtain ⟨hA, hB⟩ := ih.1 heven
      exact ⟨OddP_poly_add hB (OddP_scalar _ (OddP_mul_p hA)), hA⟩

theorem vxp_step_parity (AB : SPoly × SPoly) (kc : ℤ × ℤ)
    (hA : EvenP AB.1) (hB : OddP AB.2) :
    EvenP (jones_to_Vxp_step false AB kc).1 ∧
      OddP (jones_to_Vxp_step false AB kc).2 := by
  obtain ⟨k, c⟩ := kc
  by_cases hc : c = 0
  · simpa [jones_to_Vxp_step, hc] using ⟨hA, hB⟩
  · by_cases hk : 0 ≤ k
    · have hidx : (2 * k).toNat % 2 = 0 := by omega
      obtain ⟨hAt, hBt⟩ := (powX_parity (2 * k).toNat).1 hidx
      by_cases hc1 : c = 1
      · simp only [jones_to_Vxp_step, if_neg hc, if_pos hk, if_pos hc1,
          Bool.false_eq_true, if_false]
        exact ⟨EvenP_poly_add hA hAt, OddP_poly_add hB hBt⟩
      · simp only [jones_to_Vxp_step, if_neg hc, if_pos hk, if_neg hc1,
          Bool.false_eq_true, if_false]
        exact ⟨EvenP_poly_add hA (EvenP_scalar _ hAt),
          OddP_poly_add hB (OddP_scalar _ hBt)⟩
    · have hidx : (2 * (-k)).toNat % 2 = 0 := by omega
      obtain ⟨hAt, hBt⟩ := (powY_parity (2 * (-k)).toNat).1 hidx
      by_cases hc1 : c = 1
      · simp only [jones_to_Vxp_step, if_neg hc, if_neg hk, if_pos hc1,
          Bool.false_eq_true, if_false]
        exact ⟨EvenP_poly_add hA hAt, OddP_poly_add hB hBt⟩
      · simp only [jones_to_Vxp_step, if_neg hc, if_neg hk, if_neg hc1,
          Bool.false_eq_true, if_false]
        exact ⟨EvenP_poly_add hA (EvenP_scalar _ hAt),
          OddP_poly_add hB (OddP_scalar _ hBt)⟩

theorem vxp_fold_parity (C : List (ℤ × ℤ)) : ∀ AB : SPoly × SPoly,
    EvenP AB.1 → OddP AB.2 →
    EvenP (C.foldl (jones_to_Vxp_step false) AB).1 ∧
      OddP (C.foldl (jones_to_Vxp_step false) AB).2 := by
  induction C with
  | nil => intro AB hA hB; exact ⟨hA, hB⟩
  | cons kc t ih =>
    intro AB hA hB
    rw [List.foldl_cons]
    obtain ⟨hA', hB'⟩ := vxp_step_parity AB kc hA hB
    exact ih (jones_to_Vxp_step false AB kc) hA' hB'

theorem vxp_parity (C : List (ℤ × ℤ)) :
    EvenP (jones_to_Vxp C false).1 ∧ OddP (jones_to_Vxp C false).2 :=
  vxp_fold_parity C (SPoly.empty, SPoly.empty) EvenP_empty OddP_empty

theorem merged_comp_zero (C : List (ℤ × ℤ)) (D : ℕ)
    (h : ∀ d, 1 ≤ d → d < D → mergedCoeff C d = 0) :
    ∀ d, 1 ≤ d → d < D →
      (jones_to_Vxp C false).1.get d = 0 ∧
        (jones_to_Vxp C false).2.get d = 0 := by
  intro d h1 h2
  have hpar := vxp_parity C
  have hm := h d h1 h2
  unfold mergedCoeff at hm
  rcases Nat.mod_two_eq_zero_or_one d with he | ho
  · have hB := hpar.2 d he
    constructor
    · omega
    · exact hB
  · have hA := hpar.1 d ho
    constructor
    · exact hA
    · omega

theorem B_get_zero (C : List (ℤ × ℤ)) :
    (jones_to_Vxp C false).2.get 0 = 0 :=
  (vxp_parity C).2 0 rfl

theorem coreZeros (C : List (ℤ × ℤ)) (m : ℕ) (hm : 1 ≤ m)
    (h : ∀ d, 1 ≤ d → d ≤ m → mergedCoeff C d = 0) :
    Mint C m = 0 := by
  have hdec := Sm_decomp C m
  have hcomp := merged_comp_zero C (m + 1) (fun d h1 h2 => h d h1 (by omega))
  have hone : Sm (Wp ^ 0) m = 0 := by
    rw [pow_zero, Sm_one, zero_pow (by omega)]
  have hAsum : (∑ d in (jones_to_Vxp C false).1.keys,
      (jones_to_Vxp C false).1.get d * Sm (Wp ^ d) m) = 0 := by
    apply Finset.sum_eq_zero
    intro d _
    rcases Nat.lt_or_ge m d with hlt | hge
    · rw [Sm_W_pow_lt d m hlt, mul_zero]
    · cases Nat.eq_zero_or_pos d with
      | inl h0 => rw [h0, hone, mul_zero]
      | inr hpos =>
        rw [(hcomp d hpos (by omega)).1, zero_mul]
  have hBsum : (∑ d in (jones_to_Vxp C false).2.keys,
      (jones_to_Vxp C false).2.get d * Sm (Wp ^ d * lT) m) = 0 := by
    apply Finset.sum_eq_zero
    intro d _
    rcases Nat.lt_or_ge m d with hlt | hge
    · rw [Sm_W_pow_T_lt d m hlt, mul_zero]
    · cases Nat.eq_zero_or_pos d with
      | inl h0 => rw [h0, B_get_zero, zero_mul]
      | inr hpos =>
        rw [(hcomp d hpos (by omega)).2, zero_mul]
  rw [hAsum, hBsum, add_zero] at hdec
  have h2 : (2 : ℤ) ^ m ≠ 0 := pow_ne_zero m two_ne_zero
  exact (mul_eq_zero.mp hdec).resolve_left h2

theorem coreStep (C : List (ℤ × ℤ)) (D : ℕ) (hD : 1 ≤ D)
    (h : ∀ d, 1 ≤ d → d < D → mergedCoeff C d = 0) :
    Mint C D = (Nat.factorial D : ℤ) * mergedCoeff C D := by
  have hdec := Sm_decomp C D
  have hcomp := merged_comp_zero C D h
  have hone : Sm (Wp ^ 0) D = 0 := by
    rw [pow_zero, Sm_one, zero_pow (by omega)]
  have hAsum : (∑ d in (jones_to_Vxp C false).1.keys,
      (jones_to_Vxp C false).1.get d * Sm (Wp ^ d) D) =
      (jones_to_Vxp C false).1.get D * (2 ^ D * (Nat.factorial D : ℤ)) := by
    rw [Finset.sum_eq_single D]
    · rw [Sm_W_pow_self]
    · intro b _ hne
      rcases Nat.lt_or_ge D b with hlt | hge
      · rw [Sm_W_pow_lt b D hlt, mul_zero]
      · cases Nat.eq_zero_or_pos b with
        | inl h0 => rw [h0, hone, mul_zero]
        | inr hpos =>
          rw [(hcomp b hpos (by omega)).1, zero_mul]
    · intro hD'
      rw [SPoly.get_not_mem _ _ hD', zero_mul]
  have hBsum : (∑ d in (jones_to_Vxp C false).2.keys,
      (jones_to_Vxp C false).2.get d * Sm (Wp ^ d * lT) D) =
      (jones_to_Vxp C false).2.get D * (2 ^ D * (Nat.factorial D : ℤ)) := by
    rw [Finset.sum_eq_single D]
    · rw [Sm_W_pow_T_self]
    · intro b _ hne
      rcases Nat.lt_or_ge D b with hlt | hge
      · rw [Sm_W_pow_T_lt b D hlt, mul_zero]
      · cases Nat.eq_zero_or_pos b with
        | inl h0 => rw [h0, B_get_zero, zero_mul]
        | inr hpos =>
          rw [(hcomp b hpos (by omega)).2, zero_mul]
    · intro hD'
      rw [SPoly.get_not_mem _ _ hD', zero_mul]
  rw [hAsum, hBsum] at hdec
  have h2 : (2 : ℤ) ^ D ≠ 0 := pow_ne_zero D two_ne_zero
  apply mul_left_cancel₀ h2
  rw [hdec]
  unfold mergedCoeff
  ring

theorem Jtransform_JVP_eq_some_iff (C : List (ℤ × ℤ)) (D : ℕ) :
    Jtransform_JVP C = some D ↔
      (1 ≤ D ∧ mergedCoeff C D ≠ 0 ∧
        ∀ j, 1 ≤ j → j < D → mergedCoeff C j = 0) := by
  unfold Jtransform_JVP mergedCoeff
  exact Jm_jvp_eq_some_iff _ _ D

theorem Jtransform_JVP_eq_none_iff (C : List (ℤ × ℤ)) :
    Jtransform_JVP C = none ↔ ∀ j, 1 ≤ j → mergedCoeff C j = 0 := by
  unfold Jtransform_JVP mergedCoeff
  exact Jm_jvp_eq_none_iff _ _

theorem Mint_mirror (C : List (ℤ × ℤ)) (m : ℕ) :
    Mint (mirrorMap C) m = (-1) ^ m * Mint C m := by
  unfold Mint mirrorMap
  rw [List.map_map]
  simp only [Function.comp_def]
  induction C with
  | nil => simp
  | cons kc t ih =>
    rw [List.map_cons, List.sum_cons, List.map_cons, List.sum_cons, mul_add,
      ih, neg_pow]
    ring

theorem mergedCoeff_zero_of_Mint_zero (C : List (ℤ × ℤ)) :
    ∀ j, 1 ≤ j → (∀ i, 1 ≤ i → i ≤ j → Mint C i = 0) →
      mergedCoeff C j = 0 := by
  intro j
  induction j using Nat.strong_induction_on with
  | _ j ih =>
    intro h1 hM
    have hbelow : ∀ d, 1 ≤ d → d < j → mergedCoeff C d = 0 := fun d hd1 hdj =>
      ih d hdj hd1 (fun i hi1 hij => hM i hi1 (by omega))
    have hstep := coreStep C j h1 hbelow
    rw [hM j h1 le_rfl] at hstep
    have hf : (Nat.factorial j : ℤ) ≠ 0 := by
      exact_mod_cast Nat.factorial_ne_zero j
    exact (mul_eq_zero.mp hstep.symm).resolve_left hf

theorem Jm_agree (C : List (ℤ × ℤ)) (m D : ℕ)
    (hBL : Jtransform_BL C = some m) (hJVP : Jtransform_JVP C = some D) :
    m = D := by
  obtain ⟨h1D, hne, hzero⟩ := (Jtransform_JVP_eq_some_iff C D).mp hJVP
  obtain ⟨h1m, h11m, hMne, hMzero⟩ := (Jtransform_BL_eq_some_iff C m).mp hBL
  have hMD : Mint C D = (Nat.factorial D : ℤ) * mergedCoeff C D :=
    coreStep C D h1D hzero
  have hMDne : Mint C D ≠ 0 := by
    rw [hMD]
    exact mul_ne_zero (by exact_mod_cast Nat.factorial_ne_zero D) hne
  have hMlow : ∀ j, 1 ≤ j → j < D → Mint C j = 0 := fun j h1j hjD =>
    coreZeros C j h1j (fun d hd1 hdj => hzero d hd1 (by omega))
  by_contra hne'
  rcases Nat.lt_or_ge m D with h | h
  · exact hMne (hMlow m h1m h)
  · exact hMDne (hMzero D h1D (by omega))

theorem mirror_JVP (C : List (ℤ × ℤ)) :
    Jtransform_JVP (mirrorMap C) = Jtransform_JVP C := by
  cases hC : Jtransform_JVP C with
  | some D =>
    obtain ⟨h1D, hne, hzero⟩ := (Jtransform_JVP_eq_some_iff C D).mp hC
    have hMlow : ∀ j, 1 ≤ j → j < D → Mint C j = 0 := fun j h1j hjD =>
      coreZeros C j h1j (fun d hd1 hdj => hzero d hd1 (by omega))
    have hMD : Mint C D ≠ 0 := by
      rw [coreStep C D h1D hzero]
      exact mul_ne_zero (by exact_mod_cast Nat.factorial_ne_zero D) hne
    have hMlow' : ∀ j, 1 ≤ j → j < D → Mint (mirrorMap C) j = 0 := by
      intro j h1 h2
      rw [Mint_mirror, hMlow j h1 h2, mul_zero]
    have hMD' : Mint (mirrorMap C) D ≠ 0 := by
      rw [Mint_mirror]
      exact mul_ne_zero (pow_ne_zero D (by norm_num)) hMD
    have hmz : ∀ j, 1 ≤ j → j < D → mergedCoeff (mirrorMap C) j = 0 :=
      fun j h1 h2 =>
        mergedCoeff_zero_of_Mint_zero (mirrorMap C) j h1
          (fun i hi1 hij => hMlow' i hi1 (by omega))
    have hstep := coreStep (mirrorMap C) D h1D hmz
    have hmne : mergedCoeff (mirrorMap C) D ≠ 0 := by
      intro h0
      rw [h0, mul_zero] at hstep
      exact hMD' hstep
    exact (Jtransform_JVP_eq_some_iff (mirrorMap C) D).mpr ⟨h1D, hmne, hmz⟩
  | none =>
    have hall := (Jtransform_JVP_eq_none_iff C).mp hC
    have hMall : ∀ m, 1 ≤ m → Mint C m = 0 := fun m h1 =>
      coreZeros C m h1 (fun d hd1 _ => hall d hd1)
    have hMall' : ∀ m, 1 ≤ m → Mint (mirrorMap C) m = 0 := by
      intro m h1
      rw [Mint_mirror, hMall m h1, mul_zero]
    rw [Jtransform_JVP_eq_none_iff]
    intro j h1
    exact mergedCoeff_zero_of_Mint_zero (mirrorMap C) j h1
      (fun i hi1 _ => hMall' i hi1)

theorem mirror_BL (C : List (ℤ × ℤ)) :
    Jtransform_BL (mirrorMap C) = Jtransform_BL C := by
  cases hC : Jtransform_BL C with
  | some m =>
    obtain ⟨h1, h11, hne, hz⟩ := (Jtransform_BL_eq_some_iff C m).mp hC
    refine (Jtransform_BL_eq_some_iff (mirrorMap C) m).mpr
      ⟨h1, h11, ?_, ?_⟩
    · rw [Mint_mirror]
      exact mul_ne_zero (pow_ne_zero m (by norm_num)) hne
    · intro j hj1 hjm
      rw [Mint_mirror, hz j hj1 hjm, mul_zero]
  | none =>
    rw [Jtransform_BL_eq_none_iff] at hC
    rw [Jtransform_BL_eq_none_iff]
    intro j hj1 hj11
    rw [Mint_mirror, hC j hj1 hj11, mul_zero]

theorem process_record_skip (cfg : Cfg) (s : WState) (label : String)
    (coefs : List (ℤ × ℤ))
    (h : coefs = [] ∨ (knotIdOf label ≠ none ∧ Jtransform cfg.rep coefs = none)) :
    process_record cfg s label coefs = some s := by
  unfold process_record
  by_cases h01 : label = "0_1"
  · rw [if_pos h01]
  · rw [if_neg h01]
    rcases h with hc | ⟨hid, heng⟩
    · rw [if_pos hc]
    · by_cases hc : coefs = []
      · rw [if_pos hc]
      · rw [if_neg hc]
        obtain ⟨kid, hkid⟩ : ∃ kid, knotIdOf label = some kid := by
          cases hknot : knotIdOf label with
          | none => exact absurd hknot hid
          | some k => exact ⟨k, rfl⟩
        rw [hkid, heng]

theorem process_split_file_cons (cfg : Cfg) (r : String × List (ℤ × ℤ))
    (rest : List (String × List (ℤ × ℤ))) (s : WState) :
    process_split_file cfg (r :: rest) s =
      match process_record cfg s r.1 r.2 with
      | none => s
      | some s' => process_split_file cfg rest s' := rfl

theorem process_split_file_skip (cfg : Cfg)
    (pre post : List (String × List (ℤ × ℤ))) (label : String)
    (coefs : List (ℤ × ℤ))
    (h : coefs = [] ∨ (knotIdOf label ≠ none ∧ Jtransform cfg.rep coefs = none)) :
    ∀ s0 : WState,
      process_split_file cfg (pre ++ (label, coefs) :: post) s0 =
        process_split_file cfg (pre ++ post) s0 := by
  induction pre with
  | nil =>
    intro s0
    rw [List.nil_append, List.nil_append, process_split_file_cons,
      process_record_skip cfg s0 label coefs h]
  | cons r t ih =>
    intro s0
    rw [List.cons_append, List.cons_append, process_split_file_cons,
      process_split_file_cons]
    cases hr : process_record cfg s0 r.1 r.2 with
    | none => rfl
    | some s' => exact ih s'

theorem stepRuns_cases (interval : ℤ) (runs : List KnotRun) (bucket : String)
    (kid : ℤ) (label : String) :
    (runs.getLast? = none →
      stepRuns interval runs bucket kid label =
        runs ++ [⟨bucket, kid, kid, label⟩]) ∧
    (∀ r, runs.getLast? = some r →
      (kid > r.hi + interval ∨ bucket ≠ r.bucket) →
      stepRuns interval runs bucket kid label =
        runs ++ [⟨bucket, kid, kid, label⟩]) ∧
    (∀ r, runs.getLast? = some r → kid ≤ r.hi + interval →
      bucket = r.bucket → kid = r.hi + 1 →
      stepRuns interval runs bucket kid label =
        runs.dropLast ++ [⟨r.bucket, r.lo, r.hi + 1, r.label⟩]) ∧
    (∀ r, runs.getLast? = some r → kid ≤ r.hi + interval →
      bucket = r.bucket → kid ≠ r.hi + 1 →
      stepRuns interval runs bucket kid label = runs) := by
  refine ⟨?_, ?_, ?_, ?_⟩
  · intro h
    simp only [stepRuns, h]
  · intro r h hcond
    simp only [stepRuns, h]
    rw [if_pos hcond]
  · intro r h h1 h2 h3
    simp only [stepRuns, h]
    rw [if_neg (by push_neg; exact ⟨by omega, h2⟩), if_pos h3]
  · intro r h h1 h2 h3
    simp only [stepRuns, h]
    rw [if_neg (by push_neg; exact ⟨by omega, h2⟩), if_neg h3]

theorem process_record_runs (cfg : Cfg) (s : WState) (label : String)
    (coefs : List (ℤ × ℤ)) (kid : ℤ) (m : ℕ)
    (h01 : label ≠ "0_1") (hc : coefs ≠ [])
    (hkid : knotIdOf label = some kid)
    (heng : Jtransform cfg.rep coefs = some m)
    (hb : bucketOf label ∈ validBuckets)
    (hm : cfg.min_m < m) (hm10 : m < 10) :
    ∃ s', process_record cfg s label coefs = some s' ∧
      s'.knotIds m =
        stepRuns cfg.sample_interval (s.knotIds m) (bucketOf label) kid label ∧
      ∀ m', m' ≠ m → s'.knotIds m' = s.knotIds m' := by
  unfold process_record
  rw [if_neg h01, if_neg hc]
  simp only [hkid, heng]
  rw [if_pos hb, if_pos hm, if_pos hm10]
  refine ⟨_, rfl, ?_, ?_⟩
  · simp
  · intro m' hne
    simp [hne]

/-- C1 counterexample: under the half-power convention (BL with
`exponent_den = 2`, JVP with `input_q_is_half_power = True`), on the
coefficient map `{1: 1, -1: 1}` both engines produce a value, but BL reports
2 while JVP reports 1, so the claimed equality fails for the half-power
branch of the convention. -/
theorem claim_C1_counterexample :
    Jm_bl (taylor_from_jones [(1, 1), (-1, 1)] 11 2) = some 2 ∧
    Jm_jvp (jones_to_Vxp [(1, 1), (-1, 1)] true).1
      (jones_to_Vxp [(1, 1), (-1, 1)] true).2 = some 1 ∧
    Jm_bl (taylor_from_jones [(1, 1), (-1, 1)] 11 2) ≠
      Jm_jvp (jones_to_Vxp [(1, 1), (-1, 1)] true).1
        (jones_to_Vxp [(1, 1), (-1, 1)] true).2 := by
  refine ⟨by with_unfolding_all decide, by decide, ?_⟩
  with_unfolding_all decide

/-- C1 amended: under the integer-power convention used by the `Jtransform`
pipeline (BL at order 11 with `exponent_den = 1`, JVP with
`input_q_is_half_power = False`, which doubles the exponents), whenever both
paths produce a value the two Jm values are equal. -/
theorem claim_C1_amended : ∀ (C : List (ℤ × ℤ)) (m d : ℕ),
    Jtransform_BL C = some m → Jtransform_JVP C = some d → m = d :=
  fun C m d hBL hJVP => Jm_agree C m d hBL hJVP

/-- C1 witness: both engines produce the value 2 on the trefoil map and the
amended theorem applies. -/
theorem claim_C1_witness :
    Jtransform_BL trefoilMap = some 2 ∧ Jtransform_JVP trefoilMap = some 2 ∧
      (2 : ℕ) = 2 :=
  ⟨by with_unfolding_all decide, by decide,
    claim_C1_amended trefoilMap 2 2 (by with_unfolding_all decide) (by decide)⟩

/-- C2 counterexample: on the trefoil map `{4: -1, 3: 1, 1: 1}` neither the
BL path at order 11 nor the JVP path reports Jm = 3 (both report 2: the
first nonzero post-constant coefficient is `a_2 = -3`, and the code's
`[0] + 1` yields its index 2, not 3). -/
theorem claim_C2_counterexample :
    ¬ (Jtransform_BL trefoilMap = some 3 ∧
        Jtransform_JVP trefoilMap = some 3) := by
  intro h
  have h2 : Jtransform_JVP trefoilMap = some 2 := by decide
  rw [h.2] at h2
  exact absurd h2 (by decide)

/-- C2 amended: on the trefoil map both paths report Jm = 2, the index of
the first nonzero post-constant entry (the code adds 1 to the 0-based
enumeration of the post-constant tail, yielding the entry's position in the
full sequence, with no further offset). -/
theorem claim_C2_amended :
    Jtransform_BL trefoilMap = some 2 ∧ Jtransform_JVP trefoilMap = some 2 :=
  ⟨by with_unfolding_all decide, by decide⟩

/-- C3: on the unknot map `{0: 1}` both engine paths yield the undetermined
outcome (the Python `IndexError`/`ValueError` of the `Jm` lambdas, embedded
as `none`) and never a fabricated positive index. -/
theorem claim_C3 :
    Jtransform_BL [(0, 1)] = none ∧ Jtransform_JVP [(0, 1)] = none :=
  ⟨by with_unfolding_all decide, by decide⟩

/-- C4: evaluated on an 81-byte corpus file of the documented shape with
shard count 2, `ultra_fast_split` raises `OSError` from `f.seek(-10000, 2)`
(the file is shorter than 10000 bytes) before producing any shard file,
contradicting the claimed contract. -/
theorem claim_C4 :
    smallCorpus.length < 10000 ∧
    ultra_fast_split smallCorpus 2 = Except.error "OSError: negative seek" :=
  ⟨by decide, rfl⟩

/-- C5 amended: for a record whose Jm value `m` exceeds `min_m` (and whose
bucket and `m` are within the tables' key ranges), the classifier updates
only the run list for `m`, by `stepRuns`; and `stepRuns` starts a new run
when there is no open run, when the identifier jumped past
`last + sample_interval`, or when the bucket changed; extends the open run
by exactly one when the identifier is the immediate successor; and leaves
the run list unchanged when the identifier is within the sample interval of
the last identifier with a matching bucket but is not the immediate
successor (no jump extension takes place). -/
theorem claim_C5_amended :
    (∀ (cfg : Cfg) (s : WState) (label : String) (coefs : List (ℤ × ℤ))
        (kid : ℤ) (m : ℕ),
      label ≠ "0_1" → coefs ≠ [] → knotIdOf label = some kid →
      Jtransform cfg.rep coefs = some m → bucketOf label ∈ validBuckets →
      cfg.min_m < m → m < 10 →
      ∃ s', process_record cfg s label coefs = some s' ∧
        s'.knotIds m =
          stepRuns cfg.sample_interval (s.knotIds m) (bucketOf label) kid
            label ∧
        ∀ m', m' ≠ m → s'.knotIds m' = s.knotIds m') ∧
    (∀ (interval : ℤ) (runs : List KnotRun) (bucket : String) (kid : ℤ)
        (label : String),
      (runs.getLast? = none →
        stepRuns interval runs bucket kid label =
          runs ++ [⟨bucket, kid, kid, label⟩]) ∧
      (∀ r, runs.getLast? = some r →
        (kid > r.hi + interval ∨ bucket ≠ r.bucket) →
        stepRuns interval runs bucket kid label =
          runs ++ [⟨bucket, kid, kid, label⟩]) ∧
      (∀ r, runs.getLast? = some r → kid ≤ r.hi + interval →
        bucket = r.bucket → kid = r.hi + 1 →
        stepRuns interval runs bucket kid label =
          runs.dropLast ++ [⟨r.bucket, r.lo, r.hi + 1, r.label⟩]) ∧
      (∀ r, runs.getLast? = some r → kid ≤ r.hi + interval →
        bucket = r.bucket → kid ≠ r.hi + 1 →
        stepRuns interval runs bucket kid label = runs)) :=
  ⟨fun cfg s label coefs kid m h01 hc hkid heng hb hm hm10 =>
     process_record_runs cfg s label coefs kid m h01 hc hkid heng hb hm hm10,
   fun interval runs bucket kid label =>
     stepRuns_cases interval runs bucket kid label⟩

/-- C5 counterexample: with `sample_interval = 5`, an open run
`["3", 1, 1, "3_1"]` and a new record of the same bucket with identifier 3
(within the sample interval but not the immediate successor), the run list
is left unchanged: the upper bound is not raised to 3 as the claim's
"extend by jumping" rule predicts. -/
theorem claim_C5_counterexample :
    stepRuns 5 [⟨"3", 1, 1, "3_1"⟩] "3" 3 "3_3" = [⟨"3", 1, 1, "3_1"⟩] ∧
    stepRuns 5 [⟨"3", 1, 1, "3_1"⟩] "3" 3 "3_3" ≠ [⟨"3", 1, 3, "3_1"⟩] ∧
    stepRuns 5 [⟨"3", 1, 1, "3_1"⟩] "3" 3 "3_3" ≠ [⟨"3", 1, 3, "3_3"⟩] := by
  decide

/-- C5 witness: the amended theorem applied to an empty run list starts a
new run at the record's identifier. -/
theorem claim_C5_witness :
    stepRuns 1 [] "3" 5 "3_5" = [⟨"3", 5, 5, "3_5"⟩] :=
  (claim_C5_amended.2 1 [] "3" 5 "3_5").1 (by decide)

/-- C6 amended: for a crossing bucket whose merged table entry has a
recorded maximal holder (a nonempty holder label, which the classifier sets
exactly when some record's Jm exceeded the initial maximum 2) and at least
one classified record, the probability entry exists and is the ordered list
whose index `i` holds the count of `Jm = i + 2` divided by the bucket's
total count, truncated at the observed maximum. -/
theorem claim_C6_amended : ∀ (holder : String) (maxm : ℕ)
    (c2 c3 c4 c5 c6 c7 c8 c9 c10 : ℕ),
    holder ≠ "" → 2 ≤ maxm → maxm ≤ 10 →
    0 < c2 + c3 + c4 + c5 + c6 + c7 + c8 + c9 + c10 →
    ∃ l : List ℚ,
      probsForBucket holder maxm
        [(2, c2), (3, c3), (4, c4), (5, c5), (6, c6), (7, c7), (8, c8),
          (9, c9), (10, c10)] = some l ∧
      l.length = maxm - 1 ∧
      ∀ i, i < l.length →
        l.getD i 0 =
          (([c2, c3, c4, c5, c6, c7, c8, c9, c10].getD i 0 : ℕ) : ℚ) /
            ((c2 + c3 + c4 + c5 + c6 + c7 + c8 + c9 + c10 : ℕ) : ℚ) := by
  intro holder maxm c2 c3 c4 c5 c6 c7 c8 c9 c10 hh hm2 hm10 hn
  have hsum : (([(2, c2), (3, c3), (4, c4), (5, c5), (6, c6), (7, c7),
      (8, c8), (9, c9), (10, c10)] : List (ℕ × ℕ)).map (·.2)).sum =
      c2 + c3 + c4 + c5 + c6 + c7 + c8 + c9 + c10 := by
    simp
    ring
  unfold probsForBucket
  rw [if_pos hh]
  simp only [hsum]
  rw [if_pos hn]
  interval_cases maxm <;>
    refine ⟨_, rfl, by simp [List.filter], ?_⟩ <;>
    · intro i hi
      simp only [List.filter, List.length] at hi ⊢
      interval_cases i <;> simp [List.filter]

/-- C6 counterexample: a bucket with 5 classified records, all of Jm = 2, so
that no maximal holder was ever recorded (`d[0]` stays `''`), receives no
probability entry at all, contradicting the claim that every bucket with at
least one classified record gets one. -/
theorem claim_C6_counterexample :
    probsForBucket "" 2 [(2, 5), (3, 0), (4, 0), (5, 0), (6, 0), (7, 0),
      (8, 0), (9, 0), (10, 0)] = none ∧
    (([(2, 5), (3, 0), (4, 0), (5, 0), (6, 0), (7, 0), (8, 0), (9, 0),
      (10, 0)] : List (ℕ × ℕ)).map (·.2)).sum = 5 := by
  constructor
  · rfl
  · decide

/-- C6 witness: the amended theorem applied to a bucket with holder "3_7",
observed maximum 3 and counts 3, 1 at Jm = 2, 3. -/
theorem claim_C6_witness :
    (probsForBucket "3_7" 3 [(2, 3), (3, 1), (4, 0), (5, 0), (6, 0), (7, 0),
      (8, 0), (9, 0), (10, 0)]).isSome = true := by
  obtain ⟨l, hl, -, -⟩ :=
    claim_C6_amended "3_7" 3 3 1 0 0 0 0 0 0 0 (by decide) (by decide)
      (by decide) (by decide)
  rw [hl]
  rfl

/-- C7: a record whose coefficient map is empty, or on which the selected
engine raises (`Jtransform ... = none`, with a parseable identifier so that
the record reaches the engine call inside the `try`), is skipped with the
worker state unchanged, and removing it from a shard does not change the
final state of processing the shard: no single such record aborts the
shard. -/
theorem claim_C7 : ∀ (cfg : Cfg) (s s0 : WState)
    (pre post : List (String × List (ℤ × ℤ))) (label : String)
    (coefs : List (ℤ × ℤ)),
    (coefs = [] ∨ (knotIdOf label ≠ none ∧ Jtransform cfg.rep coefs = none)) →
    process_record cfg s label coefs = some s ∧
    process_split_file cfg (pre ++ (label, coefs) :: post) s0 =
      process_split_file cfg (pre ++ post) s0 :=
  fun cfg s s0 pre post label coefs h =>
    ⟨process_record_skip cfg s label coefs h,
     process_split_file_skip cfg pre post label coefs h s0⟩

/-- C7 witness: the unknot-like record `("4_1", {0: 1})`, on which the JVP
engine raises, is skipped with the initial state unchanged. -/
theorem claim_C7_witness :
    process_record ⟨"JVP", 1, 1⟩ initState "4_1" [(0, 1)] = some initState :=
  (claim_C7 ⟨"JVP", 1, 1⟩ initState initState [("3_1", trefoilMap)]
    [("5_2", [(2, 1)])] "4_1" [(0, 1)] (Or.inr ⟨by decide, by decide⟩)).1

/-- C8: replacing a coefficient map by its mirror (every exponent negated,
coefficients kept) leaves the computed Jm value of both engine paths
unchanged, exceptions included; in particular the mirrored trefoil yields
the same value 2 as the trefoil. -/
theorem claim_C8 :
    (∀ C : List (ℤ × ℤ),
      Jtransform_JVP (mirrorMap C) = Jtransform_JVP C ∧
      Jtransform_BL (mirrorMap C) = Jtransform_BL C) ∧
    Jtransform_JVP [(-4, -1), (-3, 1), (-1, 1)] = Jtransform_JVP trefoilMap ∧
    Jtransform_BL [(-4, -1), (-3, 1), (-1, 1)] = Jtransform_BL trefoilMap :=
  ⟨fun C => ⟨mirror_JVP C, mirror_BL C⟩,
   by decide,
   by with_unfolding_all decide⟩

/-- C9: appending a fresh exponent with coefficient 0 to a coefficient map
changes neither engine's output: `taylor_from_jones` skips zero
coefficients when building its term list and `jones_to_Vxp` skips them in
its accumulation loop. -/
theorem claim_C9 : ∀ (C : List (ℤ × ℤ)) (k : ℤ) (n : ℕ) (den : ℤ) (b : Bool),
    k ∉ C.map Prod.fst →
    taylor_from_jones (C ++ [(k, 0)]) n den = taylor_from_jones C n den ∧
    jones_to_Vxp (C ++ [(k, 0)]) b = jones_to_Vxp C b := by
  intro C k n den b _
  constructor
  · unfold taylor_from_jones
    rw [List.filter_append]
    rw [show ([(k, 0)] : List (ℤ × ℤ)).filter (fun kc => kc.2 ≠ 0) = [] by
      simp]
    rw [List.append_nil]
  · unfold jones_to_Vxp
    rw [List.foldl_append]
    rw [show ∀ AB : SPoly × SPoly,
        List.foldl (jones_to_Vxp_step b) AB [(k, 0)] = AB from
      fun AB => by simp [jones_to_Vxp_step]]

/-- C9 witness: adding `2 : 0` to the map `{1: 1}` changes neither output. -/
theorem claim_C9_witness :
    taylor_from_jones [(1, 1), (2, 0)] 3 1 = taylor_from_jones [(1, 1)] 3 1 ∧
    jones_to_Vxp [(1, 1), (2, 0)] false = jones_to_Vxp [(1, 1)] false :=
  ⟨(claim_C9 [(1, 1)] 2 3 1 false (by decide)).1,
   (claim_C9 [(1, 1)] 2 3 1 false (by decide)).2⟩

/-- C10: on the empty coefficient map, `jones_to_Vxp` returns the pair of
empty polynomial dicts for either value of the half-power flag, raising no
exception. -/
theorem claim_C10 :
    jones_to_Vxp [] true = (SPoly.empty, SPoly.empty) ∧
    jones_to_Vxp [] false = (SPoly.empty, SPoly.empty) :=
  ⟨rfl, rfl⟩
